import Mathlib

/-!
Shallow embedding of the `rs-car-ipfs` single-file reconstruction engines.

The CAR framing decoder, the UnixFS protobuf parser and the CID library are
external collaborators of the repository (spec §1); blocks therefore enter the
model already parsed (`FlatUnixFs`) and CIDs are opaque identifiers (`Nat`).
The seek engine's sink (`AsyncSeek + AsyncRead + AsyncWrite`) is modelled as a
byte list plus a cursor, where writing past the end zero-fills the gap, which
is the behavior the spec relies on for sparse writes (spec §4.4).

The Rust `while` loops that can diverge on adversarial inputs (the drain loop
of the seek engine and the recursion of `flatten_tree`) are modelled with an
explicit fuel parameter; fuel exhaustion is the distinguished result `nofuel`
and a Rust panic (`unwrap` / `expect` on `None`) is the result `abort`.
-/

namespace RsCarIpfs

/-- Content identifiers are opaque equality-comparable keys (spec §3). -/
abbrev Cid := Nat

/-- Bytes of block payloads and of the output file. -/
abbrev Byte := Nat

/-- UnixFS node type tag, from the external protobuf schema. -/
inductive UnixFsType where
  | File
  | Raw
  | Directory
  | Symlink
  | Metadata
  | HAMTShard
  deriving DecidableEq, Repr

/-- A protobuf link of a UnixFS node; only the `Hash` field is consumed by the
reconstructors. The CID decoding step is external, so the hash bytes are
modelled as an already-decoded CID. -/
structure PBLink where
  Hash : Option Cid
  deriving DecidableEq, Repr

/-- The parsed form of one block, as returned by `FlatUnixFs::try_from`:
a type tag, an optional data payload, and a list of links. -/
structure FlatUnixFs where
  typ : UnixFsType
  dat : Option (List Byte)
  links : List PBLink
  deriving DecidableEq, Repr

/-- The error enum `ReadSingleFileError` of the repository. -/
inductive ReadSingleFileError where
  | IoError
  | CarDecodeError
  | NotSingleRoot (roots : List Cid)
  | UnexpectedHeaderRoots (expected actual : Cid)
  | InvalidUnixFs (msg : String)
  | InvalidUnixFsHash (msg : String)
  | MissingNode (cid : Cid)
  | MaxBufferedData (limit : Nat)
  | RootCidIsNotFile
  | PBLinkHasNoHash
  | DataNodesNotSorted
  | PendingLinksAtEOF (links : List Cid)
  | WriteLimitExceeded (n : Nat)
  | InternalError (msg : String)
  deriving DecidableEq, Repr

/-- The CAR header exposes the list of root CIDs (decoding is external). -/
structure CarHeader where
  roots : List Cid
  deriving DecidableEq, Repr

/-- Outcome of running (part of) an engine whose mutable state has type `σ`.
`fail` carries the state at the moment of the early return, because the Rust
engines mutate a borrowed sink that the caller keeps on error. `abort` models
a Rust panic; `nofuel` is the model artifact for exhausted recursion fuel. -/
inductive EngineResult (σ : Type) where
  | ok (st : σ)
  | fail (e : ReadSingleFileError) (st : σ)
  | abort
  | nofuel
  deriving DecidableEq, Repr

/-- Rust `usize::MAX`, the default write limit of the seek engine. -/
def USIZE_MAX : Nat := 2 ^ 64 - 1

/-- Overwrite `bs` into `data` starting at `pos`, zero-filling the gap when
`pos` is beyond the end (a seek past the end followed by a write zero-fills,
spec §4.4). -/
def writeBytesAt (data : List Byte) (pos : Nat) (bs : List Byte) : List Byte :=
  data.take pos ++ List.replicate (pos - data.length) 0 ++ bs ++ data.drop (pos + bs.length)

/-- The seek engine's sink: a byte file plus a cursor position. -/
structure OutFile where
  data : List Byte
  pos : Nat
  deriving DecidableEq, Repr

/-- `AsyncWriteExt::write_all` / `write` at the current position. -/
def OutFile.write (f : OutFile) (bs : List Byte) : OutFile :=
  ⟨writeBytesAt f.data f.pos bs, f.pos + bs.length⟩

/-- `seek(SeekFrom::Start(n))`. -/
def OutFile.seekStart (f : OutFile) (n : Nat) : OutFile :=
  ⟨f.data, n⟩

/-- `seek(SeekFrom::Current(n))` for a non-negative offset (the engine only
seeks forward by `len - 1 ≥ 31`). -/
def OutFile.seekCur (f : OutFile) (n : Nat) : OutFile :=
  ⟨f.data, f.pos + n⟩

/-- `AsyncReadExt::read_exact` of `n` bytes at the current position; reading
past the end of the file is an I/O error. -/
def OutFile.readExact (f : OutFile) (n : Nat) : Option (List Byte × OutFile) :=
  if f.pos + n ≤ f.data.length then
    some ((f.data.drop f.pos).take n, ⟨f.data, f.pos + n⟩)
  else none

/-- `util::assert_header_single_file`: when the caller supplies a root CID it
is returned as-is (the header is not consulted); otherwise the header must
contain exactly one root. -/
def assert_header_single_file (header : CarHeader) (root_cid : Option Cid) :
    Except ReadSingleFileError Cid :=
  match root_cid with
  | some root_cid => .ok root_cid
  | none =>
    if header.roots.length = 1 then .ok header.roots.head!
    else .error (.NotSingleRoot header.roots)

/-- `util::hash_to_cid`: CID decoding is external and modelled as already
done, so this never fails in the model. -/
def hash_to_cid (hash : Cid) : Except ReadSingleFileError Cid :=
  .ok hash

/-- `util::links_to_cids`: a link without a `Hash` field is `PBLinkHasNoHash`. -/
def links_to_cids : List PBLink → Except ReadSingleFileError (List Cid)
  | [] => .ok []
  | l :: rest =>
    match l.Hash with
    | none => .error .PBLinkHasNoHash
    | some h =>
      match hash_to_cid h with
      | .error e => .error e
      | .ok c =>
        match links_to_cids rest with
        | .error e => .error e
        | .ok cs => .ok (c :: cs)

namespace SingleFileSeek

/-- `SortedLinks<T>` of `single_file_seek.rs`, instantiated at CIDs: the
mutable ordered sequence of pending CIDs plus the consumed cursor. -/
structure SortedLinks where
  sorted_items : List Cid
  items_ptr : Nat
  deriving DecidableEq, Repr

/-- `SortedLinks::new`. -/
def SortedLinks.new (root : Cid) : SortedLinks :=
  ⟨[root], 0⟩

/-- Result of `SortedLinks::find`. -/
inductive FindResult where
  | IsNext
  | NotNext
  | Unknown
  deriving DecidableEq, Repr

/-- `SortedLinks::find`: scan from the cursor; position 0 is `IsNext`, a later
position is `NotNext`, absence is `Unknown`. -/
def SortedLinks.find (s : SortedLinks) (item : Cid) : FindResult :=
  match (s.sorted_items.drop s.items_ptr).findIdx? (fun x => x == item) with
  | some 0 => .IsNext
  | some _ => .NotNext
  | none => .Unknown

/-- `SortedLinks::first`: peek at the element at the cursor. -/
def SortedLinks.first (s : SortedLinks) : Option Cid :=
  s.sorted_items[s.items_ptr]?

/-- `SortedLinks::advance`: increments the cursor; moving past the length is
an internal error and the state is returned unchanged by the caller. -/
def SortedLinks.advance (s : SortedLinks) : Except ReadSingleFileError SortedLinks :=
  if s.sorted_items.length ≤ s.items_ptr then
    .error (.InternalError "attempting to increase items_ptr beyond items length")
  else
    .ok { s with items_ptr := s.items_ptr + 1 }

/-- `SortedLinks::remaining`: `none` when the cursor consumed everything,
otherwise the tail from the cursor. -/
def SortedLinks.remaining (s : SortedLinks) : Option (List Cid) :=
  if s.sorted_items.length ≤ s.items_ptr then none
  else some (s.sorted_items.drop s.items_ptr)

/-- `SortedLinks::insert_replace`: splice `children` in place of the first
occurrence of `root` in the whole sequence (the search starts at index 0). -/
def SortedLinks.insert_replace (s : SortedLinks) (root : Cid) (children : List Cid) :
    SortedLinks :=
  match s.sorted_items.findIdx? (fun x => x == root) with
  | some index =>
    { s with sorted_items :=
        s.sorted_items.take index ++ children ++ s.sorted_items.drop (index + 1) }
  | none => s

/-- The `UnixFsNode` enum of `single_file_seek.rs`: a links node, or a
back-reference to where a leaf's bytes were written in the output. -/
inductive UnixFsNode where
  | Links (cids : List Cid)
  | DataPtr (start size : Nat)
  deriving DecidableEq, Repr

/-- Lookup in the in-memory node map (`HashMap::get`; the map is modelled as
an association list whose most recent insertion wins). -/
def lookupNode (nodes : List (Cid × UnixFsNode)) (c : Cid) : Option UnixFsNode :=
  match nodes.find? (fun p => p.1 == c) with
  | some p => some p.2
  | none => none

/-- The mutable state of one `read_single_file_seek` call. -/
structure SeekState where
  nodes : List (Cid × UnixFsNode)
  sorted_links : SortedLinks
  out_ptr : Nat
  total_bytes_written : Nat
  out : OutFile
  deriving DecidableEq, Repr

/-- `copy_from_to_itself`: re-check the write limit, read `size` bytes at
`src_offset`, seek to `dest_offset` and write them back with the sparse-write
rule; returns the sink and the updated `total_bytes_written`. -/
def copy_from_to_itself (r : OutFile) (src_offset dest_offset size : Nat)
    (total_bytes_written write_limit : Nat) :
    EngineResult (OutFile × Nat) :=
  if write_limit < total_bytes_written + size then
    .fail (.WriteLimitExceeded (total_bytes_written + size)) (r, total_bytes_written)
  else
    match (r.seekStart src_offset).readExact size with
    | none => .fail .IoError (r.seekStart src_offset, total_bytes_written)
    | some (buffer, r') =>
      if 32 ≤ buffer.length ∧ ∀ b ∈ buffer, b = 0 then
        .ok (((r'.seekStart dest_offset).seekCur (buffer.length - 1)).write [0],
          total_bytes_written + size)
      else
        .ok ((r'.seekStart dest_offset).write buffer, total_bytes_written + size)

/-- The drain loop of `read_single_file_seek` (`while let Some(first) = ...`):
expand a known links node in place, copy back a known data node, stop when the
head of the frontier is unknown or the frontier is consumed. -/
def drainLoop (write_limit : Nat) : Nat → SeekState → EngineResult SeekState
  | 0, _ => .nofuel
  | fuel + 1, st =>
    match st.sorted_links.first with
    | none => .ok st
    | some first =>
      match lookupNode st.nodes first with
      | none => .ok st
      | some (.Links links) =>
        drainLoop write_limit fuel
          { st with sorted_links := st.sorted_links.insert_replace first links }
      | some (.DataPtr start size) =>
        if write_limit < st.total_bytes_written + size then
          .fail (.WriteLimitExceeded (st.total_bytes_written + size)) st
        else
          match copy_from_to_itself st.out start st.out_ptr size
              st.total_bytes_written write_limit with
          | .fail e (out, total) =>
            .fail e { st with out := out, total_bytes_written := total }
          | .abort => .abort
          | .nofuel => .nofuel
          | .ok (out, total) =>
            let st' : SeekState :=
              { st with out := out, total_bytes_written := total,
                        out_ptr := st.out_ptr + size }
            match st'.sorted_links.advance with
            | .error e => .fail e st'
            | .ok links' => drainLoop write_limit fuel { st' with sorted_links := links' }

/-- One iteration of the block loop of `read_single_file_seek`: root type
check, then either the leaf path (classify, write, record a `DataPtr`,
advance) or the links path (record a `Links` node), followed by the drain
loop. -/
def processBlock (write_limit fuel : Nat) (root_cid : Cid) (st : SeekState)
    (cid : Cid) (block : FlatUnixFs) : EngineResult SeekState :=
  if cid = root_cid ∧ block.typ ≠ .File then
    .fail .RootCidIsNotFile st
  else if block.links.isEmpty then
    match st.sorted_links.find cid with
    | .NotNext => .fail .DataNodesNotSorted st
    | .Unknown => .ok st
    | .IsNext =>
      match block.dat with
      | none => .fail (.InvalidUnixFs "unixfs data node has not Data field") st
      | some data =>
        if write_limit < st.total_bytes_written + data.length then
          .fail (.WriteLimitExceeded (st.total_bytes_written + data.length)) st
        else
          let out :=
            if 32 ≤ data.length ∧ ∀ b ∈ data, b = 0 then
              (st.out.seekCur (data.length - 1)).write [0]
            else
              st.out.write data
          let total := st.total_bytes_written + data.length
          let size := data.length
          let start := st.out_ptr
          let out_ptr := st.out_ptr + size
          match st.sorted_links.advance with
          | .error e =>
            .fail e { st with out := out, out_ptr := out_ptr, total_bytes_written := total }
          | .ok links' =>
            drainLoop write_limit fuel
              { nodes := (cid, .DataPtr start size) :: st.nodes,
                sorted_links := links', out_ptr := out_ptr,
                total_bytes_written := total, out := out }
  else
    match links_to_cids block.links with
    | .error e => .fail e st
    | .ok cids =>
      drainLoop write_limit fuel { st with nodes := (cid, .Links cids) :: st.nodes }

/-- The block loop of `read_single_file_seek` over the decoded CAR stream. -/
def runBlocks (write_limit fuel : Nat) (root_cid : Cid) :
    SeekState → List (Cid × FlatUnixFs) → EngineResult SeekState
  | st, [] => .ok st
  | st, (cid, block) :: rest =>
    match processBlock write_limit fuel root_cid st cid block with
    | .ok st' => runBlocks write_limit fuel root_cid st' rest
    | r => r

/-- The initial state of a `read_single_file_seek` call. -/
def initState (root_cid : Cid) (out : OutFile) : SeekState :=
  ⟨[], SortedLinks.new root_cid, 0, 0, out⟩

/-- `read_single_file_seek`: resolve the root, run the block loop over the
stream, and at EOF fail with `PendingLinksAtEOF` when the frontier still has
a pending tail. `fuel` bounds the drain loop of each block. -/
def read_single_file_seek (fuel : Nat) (header : CarHeader)
    (blocks : List (Cid × FlatUnixFs)) (out : OutFile)
    (root_cid : Option Cid) (write_limit : Option Nat) : EngineResult SeekState :=
  let write_limit := write_limit.getD USIZE_MAX
  match assert_header_single_file header root_cid with
  | .error e => .fail e ⟨[], ⟨[], 0⟩, 0, 0, out⟩
  | .ok root_cid =>
    match runBlocks write_limit fuel root_cid (initState root_cid out) blocks with
    | .ok st =>
      match st.sorted_links.remaining with
      | some links => .fail (.PendingLinksAtEOF links) st
      | none => .ok st
    | r => r

/-- Run invariant of the seek engine under write limit `K`, from an empty
initial sink: the logical write head equals the byte total, the sink cursor
and the sink length never pass the write head, and the byte total respects
the cap. -/
def SeekInv (K : Nat) (st : SeekState) : Prop :=
  st.total_bytes_written = st.out_ptr ∧
  st.out.pos ≤ st.out_ptr ∧
  st.out.data.length ≤ st.out_ptr ∧
  st.total_bytes_written ≤ K

/-- Bound carried by every possible outcome of a seek-engine run under write
limit `K`: a continuing state keeps the full invariant; an error state stays
within the cap, and a `WriteLimitExceeded` error reports a value above the
cap. -/
def RunBound (K : Nat) : EngineResult SeekState → Prop
  | .ok st => SeekInv K st
  | .fail e st =>
    st.total_bytes_written ≤ K ∧ st.out.data.length ≤ K ∧
    ∀ n, e = .WriteLimitExceeded n → K < n
  | .abort => True
  | .nofuel => True

end SingleFileSeek

namespace SingleFile

/-- The `UnixFsNode` enum of `single_file.rs`: a links node or a buffered
leaf payload. -/
inductive UnixFsNode where
  | Links (cids : List Cid)
  | Data (bytes : List Byte)
  deriving DecidableEq, Repr

/-- Lookup in the buffered engine's node map (`HashMap::get`; association
list, most recent insertion wins). -/
def lookupNode (nodes : List (Cid × UnixFsNode)) (c : Cid) : Option UnixFsNode :=
  match nodes.find? (fun p => p.1 == c) with
  | some p => some p.2
  | none => none

/-- The collection state of `read_single_file_buffered`: the node map and the
running total of buffered leaf bytes. -/
structure BufState where
  nodes : List (Cid × UnixFsNode)
  buffered_data_len : Nat
  deriving DecidableEq, Repr

/-- Link conversion of the buffered engine: `link.Hash` is unwrapped with
`expect("no Hash property")`, so a missing hash is a panic (`none` here),
not an error value. -/
def linksToCidsBuffered : List PBLink → Option (List Cid)
  | [] => some []
  | l :: rest =>
    match l.Hash with
    | none => none
    | some h =>
      match linksToCidsBuffered rest with
      | none => none
      | some cs => some (h :: cs)

/-- The block-collection loop of `read_single_file_buffered`: leaves are
buffered under the optional `max_buffer` cap (the counter is only updated
when a cap is set, as in the source) and link nodes are recorded; a leaf
without a `Data` field hits `Option::unwrap` and panics (`abort`). -/
def collectBlocks (root_cid : Cid) (max_buffer : Option Nat) :
    BufState → List (Cid × FlatUnixFs) → EngineResult BufState
  | st, [] => .ok st
  | st, (cid, block) :: rest =>
    if cid = root_cid ∧ block.typ ≠ .File then
      .fail .RootCidIsNotFile st
    else if block.links.length = 0 then
      match block.dat with
      | none => .abort
      | some data =>
        match max_buffer with
        | some mb =>
          let bl := st.buffered_data_len + data.length
          if mb < bl then
            .fail (.MaxBufferedData mb) { st with buffered_data_len := bl }
          else
            collectBlocks root_cid max_buffer ⟨(cid, .Data data) :: st.nodes, bl⟩ rest
        | none =>
          collectBlocks root_cid max_buffer
            ⟨(cid, .Data data) :: st.nodes, st.buffered_data_len⟩ rest
    else
      match linksToCidsBuffered block.links with
      | none => .abort
      | some cids =>
        collectBlocks root_cid max_buffer
          ⟨(cid, .Links cids) :: st.nodes, st.buffered_data_len⟩ rest

/-- The `for link in links` loop inside `flatten_tree`, concatenating the
flattened children left to right and propagating the first error; the
recursive `flatten_tree` call is passed in as `f`. -/
def flattenChildren (f : Cid → Option (Except ReadSingleFileError (List (List Byte)))) :
    List Cid → Option (Except ReadSingleFileError (List (List Byte)))
  | [] => some (.ok [])
  | link :: rest =>
    match f link with
    | none => none
    | some (.error e) => some (.error e)
    | some (.ok ds) =>
      match flattenChildren f rest with
      | none => none
      | some (.error e) => some (.error e)
      | some (.ok rs) => some (.ok (ds ++ rs))

/-- `flatten_tree` of `single_file.rs`: depth-first walk of the node map from
`root_cid`, collecting the leaf payloads in order. `fuel` bounds the recursion
depth (the Rust recursion is unbounded on a cyclic map); `none` is fuel
exhaustion. -/
def flatten_tree (fuel : Nat) (nodes : List (Cid × UnixFsNode)) (root_cid : Cid) :
    Option (Except ReadSingleFileError (List (List Byte))) :=
  match fuel with
  | 0 => none
  | fuel + 1 =>
    match lookupNode nodes root_cid with
    | none => some (.error (.MissingNode root_cid))
    | some (.Data data) => some (.ok [data])
    | some (.Links links) => flattenChildren (flatten_tree fuel nodes) links

/-- `read_single_file_buffered` of `single_file.rs`: resolve the root (the
header is only consulted when no root is supplied), collect every block, then
flatten the DAG from the root and append each leaf payload to the sink. The
sink is an append-only byte list (`AsyncWrite` only). -/
def read_single_file_buffered (fuel : Nat) (header : CarHeader)
    (blocks : List (Cid × FlatUnixFs)) (out : List Byte)
    (root_cid : Option Cid) (max_buffer : Option Nat) : EngineResult (List Byte) :=
  match (match root_cid with
         | some r => Except.ok r
         | none =>
           if header.roots.length = 1 then .ok header.roots.head!
           else .error (ReadSingleFileError.NotSingleRoot header.roots)) with
  | .error e => .fail e out
  | .ok root =>
    match collectBlocks root max_buffer ⟨[], 0⟩ blocks with
    | .fail e _ => .fail e out
    | .abort => .abort
    | .nofuel => .nofuel
    | .ok st =>
      match flatten_tree fuel st.nodes root with
      | none => .nofuel
      | some (.error e) => .fail e out
      | some (.ok datas) => .ok (out ++ datas.flatten)

end SingleFile

/-! A UnixFS File DAG for the correctness claim: a tree of leaves (chunks of
file bytes) and internal nodes (ordered children), together with a CID
labeling. The CAR serialization emits the blocks in depth-first preorder,
each node once, which is the canonical layout honest producers emit
(spec §9). -/

/-- A UnixFS file DAG (tree-shaped: every block is emitted once and CIDs of
distinct node occurrences are distinct in the claims using it). -/
inductive FileTree where
  | leaf (data : List Byte)
  | node (children : List FileTree)

/-- Well-formed UnixFS file DAGs: internal nodes have at least one child
(a block with zero links parses as a leaf). -/
inductive Wf : FileTree → Prop where
  | leaf (d : List Byte) : Wf (.leaf d)
  | node (cs : List FileTree) (hne : cs ≠ []) (h : ∀ c ∈ cs, Wf c) : Wf (.node cs)

mutual

/-- Depth-first concatenation of the leaf bytes: the file contents. -/
def flattenT : FileTree → List Byte
  | .leaf d => d
  | .node cs => flattenTs cs

/-- Leaf-byte concatenation of a forest, left to right. -/
def flattenTs : List FileTree → List Byte
  | [] => []
  | t :: ts => flattenT t ++ flattenTs ts

end

mutual

/-- Every node occurrence of the tree, in depth-first preorder. -/
def occs : FileTree → List FileTree
  | .leaf d => [.leaf d]
  | .node cs => .node cs :: occsList cs

/-- Node occurrences of a forest, in depth-first preorder. -/
def occsList : List FileTree → List FileTree
  | [] => []
  | t :: ts => occs t ++ occsList ts

end

mutual

/-- Number of node occurrences of the tree. -/
def sizeT : FileTree → Nat
  | .leaf _ => 1
  | .node cs => 1 + sizeTs cs

/-- Number of node occurrences of a forest. -/
def sizeTs : List FileTree → Nat
  | [] => 0
  | t :: ts => sizeT t + sizeTs ts

end

mutual

/-- Height of the tree (a leaf has depth 1). -/
def depthT : FileTree → Nat
  | .leaf _ => 1
  | .node cs => 1 + depthTs cs

/-- Maximum height over a forest. -/
def depthTs : List FileTree → Nat
  | [] => 0
  | t :: ts => max (depthT t) (depthTs ts)

end

mutual

/-- The parsed CAR block stream of a tree under the CID labeling `lab`, in
depth-first preorder: a leaf is a `File` block with a data payload and no
links, an internal node is a `File` block whose links carry the children's
CIDs. -/
def serializeT (lab : FileTree → Cid) : FileTree → List (Cid × FlatUnixFs)
  | .leaf d => [(lab (.leaf d), ⟨.File, some d, []⟩)]
  | .node cs =>
    (lab (.node cs), ⟨.File, none, cs.map (fun c => ⟨some (lab c)⟩)⟩) :: serializeTs lab cs

/-- The parsed CAR block streams of a forest, concatenated. -/
def serializeTs (lab : FileTree → Cid) : List FileTree → List (Cid × FlatUnixFs)
  | [] => []
  | t :: ts => serializeT lab t ++ serializeTs lab ts

end

mutual

/-- The leaf payloads of the tree in depth-first order, kept as a list of
chunks (the shape `flatten_tree` of the buffered engine produces). -/
def leafDatas : FileTree → List (List Byte)
  | .leaf d => [d]
  | .node cs => leafDatasList cs

/-- Leaf payload chunks of a forest, left to right. -/
def leafDatasList : List FileTree → List (List Byte)
  | [] => []
  | t :: ts => leafDatas t ++ leafDatasList ts

end

/-- The record the buffered engine's collection phase stores for one node. -/
def nodeRecord (lab : FileTree → Cid) : FileTree → SingleFile.UnixFsNode
  | .leaf d => .Data d
  | .node cs => .Links (cs.map lab)

/-- The node-map entries the buffered engine accumulates for a forest, in
arrival (preorder) order. -/
def records (lab : FileTree → Cid) (F : List FileTree) :
    List (Cid × SingleFile.UnixFsNode) :=
  (occsList F).map (fun t => (lab t, nodeRecord lab t))

/-- The block-deduplicated CAR stream of a forest under the CID labeling
`lab`, walking the frontier in depth-first preorder: a block is emitted at
the first occurrence of its CID, and every later occurrence of the same CID
is skipped together with its subtree (its blocks were all emitted at the
first occurrence), so each distinct block appears exactly once — the layout
of a deduplicated CAR (spec §1, §8.3). On a forest without repeated
subtrees this is the plain preorder serialization. -/
def dedupSer (lab : FileTree → Cid) : List Cid → List FileTree → List (Cid × FlatUnixFs)
  | _, [] => []
  | seen, .leaf d :: F =>
    if lab (.leaf d) ∈ seen then dedupSer lab seen F
    else (lab (.leaf d), ⟨.File, some d, []⟩) :: dedupSer lab (lab (.leaf d) :: seen) F
  | seen, .node cs :: F =>
    if lab (.node cs) ∈ seen then dedupSer lab seen F
    else (lab (.node cs), ⟨.File, none, cs.map (fun c => ⟨some (lab c)⟩)⟩) ::
      dedupSer lab (lab (.node cs) :: seen) (cs ++ F)
termination_by _ F => sizeTs F
decreasing_by
  · simp only [sizeTs, sizeT]
    omega
  · simp only [sizeTs, sizeT]
    omega
  · simp only [sizeTs, sizeT]
    omega
  · have happ : ∀ (a b : List FileTree), sizeTs (a ++ b) = sizeTs a + sizeTs b := by
      intro a
      induction a with
      | nil => intro b; simp [sizeTs]
      | cons x xs ih =>
        intro b
        simp [sizeTs, ih]
        omega
    simp only [sizeTs, sizeT, happ]
    omega

/-- The record the seek engine keeps in its node map for one already-written
subtree, with its meaning against the current sink contents: an internal
node is stored as its children's CIDs, a leaf as a back-reference to the
sink segment that holds exactly its bytes. -/
def SeekRec (lab : FileTree → Cid) (nodes : List (Cid × SingleFileSeek.UnixFsNode))
    (data : List Byte) : FileTree → Prop
  | .leaf d => ∃ start, SingleFileSeek.lookupNode nodes (lab (.leaf d)) =
        some (.DataPtr start d.length) ∧ start + d.length ≤ data.length ∧
        (data.drop start).take d.length = d
  | .node cs => SingleFileSeek.lookupNode nodes (lab (.node cs)) =
        some (.Links (cs.map lab))

/-- Ordering invariant of a deduplicated depth-first walk: whenever the
occurrence list still holds a node occurrence whose CID was already emitted,
every not-yet-emitted member of that node's subtree occurs strictly earlier
in the list (so it is consumed before the duplicate is reached). -/
def OrdInv (lab : FileTree → Cid) (SL : List Cid) (os : List FileTree) : Prop :=
  ∀ (i : Nat) (cs : List FileTree), os[i]? = some (FileTree.node cs) →
    lab (FileTree.node cs) ∈ SL →
    ∀ v ∈ occs (FileTree.node cs), lab v ∉ SL → ∃ j, j < i ∧ os[j]? = some v


/-! ## Theorems -/

namespace SingleFileSeek

theorem first_eq_head?_drop (s : SortedLinks) :
    s.first = (s.sorted_items.drop s.items_ptr).head? := by
  unfold SortedLinks.first
  rcases h : s.sorted_items.drop s.items_ptr with _ | ⟨x, rest⟩
  · have hlen : s.sorted_items.length ≤ s.items_ptr := by
      have := List.drop_eq_nil_iff.mp h
      omega
    simp [List.getElem?_eq_none hlen]
  · have : (s.sorted_items.drop s.items_ptr)[0]? = some x := by simp [h]
    simpa using this

theorem find_isNext_iff (s : SortedLinks) (c : Cid) :
    s.find c = .IsNext ↔ s.first = some c := by
  rw [first_eq_head?_drop]
  unfold SortedLinks.find
  rcases h : s.sorted_items.drop s.items_ptr with _ | ⟨x, rest⟩
  · simp
  · by_cases hxc : x = c
    · subst hxc
      simp [List.findIdx?_cons]
    · have hb : (x == c) = false := by simp [hxc]
      simp only [List.findIdx?_cons, hb, if_false, List.head?_cons, Option.some.injEq]
      rw [List.findIdx?_start_succ]
      rcases rest.findIdx? (fun y => y == c) 0 with _ | i <;> simp [hxc]

theorem find_unknown_iff (s : SortedLinks) (c : Cid) :
    s.find c = .Unknown ↔ c ∉ s.sorted_items.drop s.items_ptr := by
  unfold SortedLinks.find
  rcases hidx : (s.sorted_items.drop s.items_ptr).findIdx? (fun y => y == c) with _ | i
  · have hmem : c ∉ s.sorted_items.drop s.items_ptr := by
      rw [List.findIdx?_eq_none_iff] at hidx
      intro hmem
      have := hidx c hmem
      simp at this
    simp [hidx, hmem]
  · have hmem : c ∈ s.sorted_items.drop s.items_ptr := by
      by_contra hnot
      have hnone : (s.sorted_items.drop s.items_ptr).findIdx? (fun y => y == c) = none :=
        List.findIdx?_eq_none_iff.mpr (fun x hx => by
          simp only [beq_eq_false_iff_ne, ne_eq]
          rintro rfl
          exact hnot hx)
      rw [hnone] at hidx
      cases hidx
    rcases i with _ | i <;> simp [hidx, hmem]

theorem find_notNext_iff (s : SortedLinks) (c : Cid) :
    s.find c = .NotNext ↔
      s.first ≠ some c ∧ c ∈ s.sorted_items.drop s.items_ptr := by
  have h1 := find_isNext_iff s c
  have h2 := find_unknown_iff s c
  cases h : s.find c <;> simp [h] at h1 h2 ⊢ <;> tauto

theorem advance_eq_ok (s : SortedLinks) (h : s.items_ptr < s.sorted_items.length) :
    s.advance = .ok ⟨s.sorted_items, s.items_ptr + 1⟩ := by
  unfold SortedLinks.advance
  rw [if_neg (by omega)]

theorem first_isSome_lt (s : SortedLinks) (c : Cid) (h : s.first = some c) :
    s.items_ptr < s.sorted_items.length := by
  unfold SortedLinks.first at h
  by_contra hge
  rw [List.getElem?_eq_none (by omega)] at h
  cases h

/-- C9: `advance()` requires `cursor < len`: when the precondition holds it
returns `Ok` with the cursor incremented by exactly one and the sequence
unchanged; when `cursor ≥ len` it returns the `InternalError` variant and no
new state. -/
theorem claim_c9 (s : SortedLinks) :
    (s.items_ptr < s.sorted_items.length →
      s.advance = .ok ⟨s.sorted_items, s.items_ptr + 1⟩) ∧
    (s.sorted_items.length ≤ s.items_ptr →
      s.advance =
        .error (.InternalError "attempting to increase items_ptr beyond items length")) := by
  unfold SortedLinks.advance
  constructor
  · intro h
    rw [if_neg (by omega)]
  · intro h
    rw [if_pos h]

/-- Witness for C9 at the concrete tracker states ⟨[4, 6], 1⟩ and ⟨[4, 6], 2⟩. -/
theorem claim_c9_witness :
    (SortedLinks.mk [4, 6] 1).advance = .ok ⟨[4, 6], 2⟩ ∧
    (SortedLinks.mk [4, 6] 2).advance =
      .error (.InternalError "attempting to increase items_ptr beyond items length") :=
  ⟨(claim_c9 ⟨[4, 6], 1⟩).1 (by decide), (claim_c9 ⟨[4, 6], 2⟩).2 (by decide)⟩

/-- C10: when `cid` occurs nowhere in the sorted sequence, `insert_replace`
is a no-op: the sequence and the cursor are unchanged. -/
theorem claim_c10 (s : SortedLinks) (c : Cid) (children : List Cid)
    (h : c ∉ s.sorted_items) :
    s.insert_replace c children = s := by
  unfold SortedLinks.insert_replace
  have hnone : s.sorted_items.findIdx? (fun x => x == c) = none :=
    List.findIdx?_eq_none_iff.mpr (fun x hx => by
      simp only [beq_eq_false_iff_ne, ne_eq]
      rintro rfl
      exact h hx)
  rw [hnone]

/-- Witness for C10: replacing the absent CID 9 in ⟨[4, 6], 0⟩ changes
nothing. -/
theorem claim_c10_witness :
    (SortedLinks.mk [4, 6] 0).insert_replace 9 [1, 2] = ⟨[4, 6], 0⟩ :=
  claim_c10 ⟨[4, 6], 0⟩ 9 [1, 2] (by decide)

/-- C3 counterexample: on the tracker state ⟨[5, 7], cursor 1⟩ the CID 5 is
present in the sequence but only strictly before the cursor, and
`insert_replace(5, [9])` replaces that consumed element: the claim that an
element strictly before the cursor is never replaced is false. -/
theorem claim_c3_counterexample :
    (SortedLinks.mk [5, 7] 1).insert_replace 5 [9] = ⟨[9, 7], 1⟩ ∧
    ([9, 7] : List Cid).take 1 ≠ ([5, 7] : List Cid).take 1 := by
  constructor
  · rfl
  · decide

/-- C3 amended: `insert_replace(cid, children)` splices `children` in place
of the first occurrence of `cid` in the whole sequence, searching from index
0 (so also inside the consumed prefix region before the cursor), preserving
the order of the following elements and leaving the cursor unchanged. -/
theorem claim_c3 (s : SortedLinks) (c : Cid) (children pre suf : List Cid)
    (hsplit : s.sorted_items = pre ++ c :: suf) (hpre : c ∉ pre) :
    s.insert_replace c children = ⟨pre ++ children ++ suf, s.items_ptr⟩ := by
  unfold SortedLinks.insert_replace
  have hfind : s.sorted_items.findIdx? (fun x => x == c) = some pre.length := by
    rw [hsplit, List.findIdx?_append]
    have hnone : pre.findIdx? (fun x => x == c) = none :=
      List.findIdx?_eq_none_iff.mpr (fun x hx => by
        simp only [beq_eq_false_iff_ne, ne_eq]
        rintro rfl
        exact hpre hx)
    simp [hnone, List.findIdx?_cons]
  rw [hfind]
  have htake : s.sorted_items.take pre.length = pre := by
    rw [hsplit]
    exact List.take_left pre (c :: suf)
  have hdrop : s.sorted_items.drop (pre.length + 1) = suf := by
    rw [hsplit]
    have : pre ++ c :: suf = (pre ++ [c]) ++ suf := by simp
    rw [this]
    exact List.drop_left' (by simp)
  simp only [htake, hdrop]

/-- Witness for C3 amended: on ⟨[3, 5, 7], 0⟩, replacing 5 with [8, 9] gives
⟨[3, 8, 9, 7], 0⟩. -/
theorem claim_c3_witness :
    (SortedLinks.mk [3, 5, 7] 0).insert_replace 5 [8, 9] = ⟨[3, 8, 9, 7], 0⟩ :=
  claim_c3 ⟨[3, 5, 7], 0⟩ 5 [8, 9] [3] [7] (by decide) (by decide)

end SingleFileSeek

open SingleFileSeek in
/-- C2 counterexample: a CAR whose header root list is `[1]` processed with
`expected_root = 2` does not fail with `UnexpectedHeaderRoots`: both engines
succeed using the caller's root and write the leaf bytes `[7, 8]` to the
sink. -/
theorem claim_c2_counterexample :
    read_single_file_seek 2 ⟨[1]⟩ [(2, ⟨.File, some [7, 8], []⟩)] ⟨[], 0⟩ (some 2) none =
      .ok ⟨[(2, .DataPtr 0 2)], ⟨[2], 1⟩, 2, 2, ⟨[7, 8], 2⟩⟩ ∧
    SingleFile.read_single_file_buffered 1 ⟨[1]⟩ [(2, ⟨.File, some [7, 8], []⟩)] []
      (some 2) none = .ok [7, 8] := by
  constructor <;> rfl

open SingleFileSeek in
/-- C2 amended: when a caller-supplied `expected_root` is present, both
engines proceed with it and never consult the CAR header's root list: the
result of either engine is identical for any two headers, so a mismatching
header root is not detected and `UnexpectedHeaderRoots` is not produced at
header-check time. -/
theorem claim_c2 (fuel : Nat) (h1 h2 : CarHeader) (blocks : List (Cid × FlatUnixFs))
    (out : OutFile) (outb : List Byte) (r : Cid) (lim mb : Option Nat) :
    read_single_file_seek fuel h1 blocks out (some r) lim =
      read_single_file_seek fuel h2 blocks out (some r) lim ∧
    SingleFile.read_single_file_buffered fuel h1 blocks outb (some r) mb =
      SingleFile.read_single_file_buffered fuel h2 blocks outb (some r) mb :=
  ⟨rfl, rfl⟩

open SingleFileSeek in
/-- C4 counterexample: a leaf block (zero links) whose UnixFS data field is
absent makes `read_single_file_buffered` hit `Option::unwrap` and panic
(`abort`): the call does not return an `InvalidUnixFs` error value. -/
theorem claim_c4_counterexample :
    SingleFile.read_single_file_buffered 1 ⟨[5]⟩ [(5, ⟨.File, none, []⟩)] []
      (some 5) none = .abort := by
  rfl

open SingleFileSeek in
/-- C4 amended: for a block parsed as a leaf (zero links) whose UnixFS data
field is absent, the seek reconstructor returns the error `InvalidUnixFs` —
but only when the leaf is the next expected CID, because classification
precedes the data check — while the buffered reconstructor aborts (panics on
`unwrap`) instead of returning an error value. -/
theorem claim_c4 :
    (∀ (write_limit fuel root : Nat) (st : SeekState) (cid : Cid) (block : FlatUnixFs)
       (rest : List (Cid × FlatUnixFs)),
      block.links = [] →
      ¬(cid = root ∧ block.typ ≠ .File) →
      block.dat = none →
      st.sorted_links.first = some cid →
      runBlocks write_limit fuel root st ((cid, block) :: rest) =
        .fail (.InvalidUnixFs "unixfs data node has not Data field") st) ∧
    (∀ (root : Cid) (mb : Option Nat) (st : SingleFile.BufState) (cid : Cid)
       (block : FlatUnixFs) (rest : List (Cid × FlatUnixFs)),
      block.links = [] →
      ¬(cid = root ∧ block.typ ≠ .File) →
      block.dat = none →
      SingleFile.collectBlocks root mb st ((cid, block) :: rest) = .abort) := by
  constructor
  · intro write_limit fuel root st cid block rest hleaf hroot hdat hfirst
    have hfind : st.sorted_links.find cid = .IsNext := (find_isNext_iff _ _).mpr hfirst
    simp [runBlocks, processBlock, hroot, hleaf, hfind, hdat]
  · intro root mb st cid block rest hleaf hroot hdat
    simp [SingleFile.collectBlocks, hroot, hleaf, hdat]

open SingleFileSeek in
/-- Witness for C4 amended at a concrete input: a data-less leaf with CID 1
that is the next expected block fails the seek engine with `InvalidUnixFs`,
and aborts the buffered engine. -/
theorem claim_c4_witness :
    runBlocks 10 1 1 (initState 1 ⟨[], 0⟩) [(1, ⟨.File, none, []⟩)] =
      .fail (.InvalidUnixFs "unixfs data node has not Data field") (initState 1 ⟨[], 0⟩) ∧
    SingleFile.collectBlocks 1 none ⟨[], 0⟩ [(1, ⟨.File, none, []⟩)] = .abort :=
  ⟨claim_c4.1 10 1 1 (initState 1 ⟨[], 0⟩) 1 ⟨.File, none, []⟩ [] rfl (by decide) rfl rfl,
   claim_c4.2 1 none ⟨[], 0⟩ 1 ⟨.File, none, []⟩ [] rfl (by decide) rfl⟩

open SingleFileSeek in
/-- C8: when the CAR source is exhausted (the block loop returned `Ok`), the
seek engine fails with `PendingLinksAtEOF` carrying the unconsumed tail when
the cursor has not consumed the whole sequence (and that tail is non-empty),
and returns `Ok` when the cursor has consumed the whole sequence. -/
theorem claim_c8 (fuel : Nat) (header : CarHeader) (blocks : List (Cid × FlatUnixFs))
    (out : OutFile) (root : Cid) (lim : Option Nat) (st : SeekState)
    (h : runBlocks (lim.getD USIZE_MAX) fuel root (initState root out) blocks = .ok st) :
    (st.sorted_links.items_ptr < st.sorted_links.sorted_items.length →
      read_single_file_seek fuel header blocks out (some root) lim =
        .fail (.PendingLinksAtEOF
          (st.sorted_links.sorted_items.drop st.sorted_links.items_ptr)) st ∧
      st.sorted_links.sorted_items.drop st.sorted_links.items_ptr ≠ []) ∧
    (st.sorted_links.sorted_items.length ≤ st.sorted_links.items_ptr →
      read_single_file_seek fuel header blocks out (some root) lim = .ok st) := by
  constructor
  · intro hlt
    have hrem : st.sorted_links.remaining =
        some (st.sorted_links.sorted_items.drop st.sorted_links.items_ptr) := by
      unfold SortedLinks.remaining
      rw [if_neg]
      omega
    constructor
    · unfold read_single_file_seek
      simp only [assert_header_single_file, h, hrem]
    · intro hnil
      have := List.drop_eq_nil_iff.mp hnil
      omega
  · intro hge
    have hrem : st.sorted_links.remaining = none := by
      unfold SortedLinks.remaining
      rw [if_pos hge]
    unfold read_single_file_seek
    simp only [assert_header_single_file, h, hrem]

open SingleFileSeek in
/-- Witness for C8 on the truncated CAR of scenario S6: root 1 links to
leaves 2 and 3, but the stream ends after leaf 2, so the engine fails with
`PendingLinksAtEOF [3]`. -/
theorem claim_c8_witness :
    read_single_file_seek 3 ⟨[1]⟩
      [(1, ⟨.File, none, [⟨some 2⟩, ⟨some 3⟩]⟩), (2, ⟨.File, some [7], []⟩)]
      ⟨[], 0⟩ (some 1) none =
      .fail (.PendingLinksAtEOF [3])
        ⟨[(2, .DataPtr 0 1), (1, .Links [2, 3])], ⟨[2, 3], 1⟩, 1, 1, ⟨[7], 1⟩⟩ ∧
    ([3] : List Cid) ≠ [] := by
  have h := claim_c8 3 ⟨[1]⟩
    [(1, ⟨.File, none, [⟨some 2⟩, ⟨some 3⟩]⟩), (2, ⟨.File, some [7], []⟩)]
    ⟨[], 0⟩ 1 none
    ⟨[(2, .DataPtr 0 1), (1, .Links [2, 3])], ⟨[2, 3], 1⟩, 1, 1, ⟨[7], 1⟩⟩ (by rfl)
  exact h.1 (by decide)

open SingleFileSeek in
/-- C6: for an arriving leaf block in the seek engine, the tracker
classification from the cursor determines the outcome: a CID equal to the
frontier head is written (per the sparse-write rule) and the cursor advances
into the drain loop; a CID occurring strictly later in the pending tail fails
with `DataNodesNotSorted`; a CID not at or after the cursor is discarded and
processing continues with the next block. -/
theorem claim_c6 :
    (∀ (write_limit fuel root : Nat) (st : SeekState) (cid : Cid) (d : List Byte)
       (block : FlatUnixFs),
      block.links = [] → ¬(cid = root ∧ block.typ ≠ .File) → block.dat = some d →
      st.sorted_links.first = some cid →
      st.total_bytes_written + d.length ≤ write_limit →
      processBlock write_limit fuel root st cid block =
        drainLoop write_limit fuel
          { nodes := (cid, .DataPtr st.out_ptr d.length) :: st.nodes,
            sorted_links := ⟨st.sorted_links.sorted_items, st.sorted_links.items_ptr + 1⟩,
            out_ptr := st.out_ptr + d.length,
            total_bytes_written := st.total_bytes_written + d.length,
            out := if 32 ≤ d.length ∧ ∀ b ∈ d, b = 0 then
                     (st.out.seekCur (d.length - 1)).write [0]
                   else st.out.write d }) ∧
    (∀ (write_limit fuel root : Nat) (st : SeekState) (cid : Cid) (block : FlatUnixFs),
      block.links = [] → ¬(cid = root ∧ block.typ ≠ .File) →
      st.sorted_links.first ≠ some cid →
      cid ∈ st.sorted_links.sorted_items.drop st.sorted_links.items_ptr →
      processBlock write_limit fuel root st cid block = .fail .DataNodesNotSorted st) ∧
    (∀ (write_limit fuel root : Nat) (st : SeekState) (cid : Cid) (block : FlatUnixFs)
       (rest : List (Cid × FlatUnixFs)),
      block.links = [] → ¬(cid = root ∧ block.typ ≠ .File) →
      cid ∉ st.sorted_links.sorted_items.drop st.sorted_links.items_ptr →
      processBlock write_limit fuel root st cid block = .ok st ∧
      runBlocks write_limit fuel root st ((cid, block) :: rest) =
        runBlocks write_limit fuel root st rest) := by
  refine ⟨?_, ?_, ?_⟩
  · intro write_limit fuel root st cid d block hleaf hroot hdat hfirst hlim
    have hfind : st.sorted_links.find cid = .IsNext := (find_isNext_iff _ _).mpr hfirst
    have hadv : st.sorted_links.advance = .ok ⟨st.sorted_links.sorted_items,
        st.sorted_links.items_ptr + 1⟩ :=
      advance_eq_ok _ (first_isSome_lt _ _ hfirst)
    have hif : ¬(write_limit < st.total_bytes_written + d.length) := by omega
    simp [processBlock, hroot, hleaf, hfind, hdat, hif, hadv]
  · intro write_limit fuel root st cid block hleaf hroot hfirst hmem
    have hfind : st.sorted_links.find cid = .NotNext :=
      (find_notNext_iff _ _).mpr ⟨hfirst, hmem⟩
    simp [processBlock, hroot, hleaf, hfind]
  · intro write_limit fuel root st cid block rest hleaf hroot hmem
    have hfind : st.sorted_links.find cid = .Unknown := (find_unknown_iff _ _).mpr hmem
    have hok : processBlock write_limit fuel root st cid block = .ok st := by
      simp [processBlock, hroot, hleaf, hfind]
    exact ⟨hok, by rw [runBlocks, hok]⟩

open SingleFileSeek in
/-- Witness for C6 at concrete states: leaf 1 at the frontier head is
written and the cursor advances; leaf 1 behind head 2 fails
`DataNodesNotSorted`; leaf 1 absent from the pending tail is discarded. -/
theorem claim_c6_witness :
    processBlock 10 1 1 (initState 1 ⟨[], 0⟩) 1 ⟨.File, some [7], []⟩ =
      drainLoop 10 1 ⟨[(1, .DataPtr 0 1)], ⟨[1], 1⟩, 1, 1, OutFile.write ⟨[], 0⟩ [7]⟩ ∧
    processBlock 10 1 3 ⟨[], ⟨[2, 1], 0⟩, 0, 0, ⟨[], 0⟩⟩ 1 ⟨.File, some [7], []⟩ =
      .fail .DataNodesNotSorted ⟨[], ⟨[2, 1], 0⟩, 0, 0, ⟨[], 0⟩⟩ ∧
    processBlock 10 1 3 ⟨[], ⟨[2], 0⟩, 0, 0, ⟨[], 0⟩⟩ 1 ⟨.File, some [7], []⟩ =
      .ok ⟨[], ⟨[2], 0⟩, 0, 0, ⟨[], 0⟩⟩ := by
  refine ⟨?_, ?_, ?_⟩
  · have h := claim_c6.1 10 1 1 (initState 1 ⟨[], 0⟩) 1 [7] ⟨.File, some [7], []⟩
      rfl (by decide) rfl rfl (by decide)
    simpa using h
  · exact claim_c6.2.1 10 1 3 ⟨[], ⟨[2, 1], 0⟩, 0, 0, ⟨[], 0⟩⟩ 1 ⟨.File, some [7], []⟩
      rfl (by decide) (by decide) (by decide)
  · exact (claim_c6.2.2 10 1 3 ⟨[], ⟨[2], 0⟩, 0, 0, ⟨[], 0⟩⟩ 1 ⟨.File, some [7], []⟩ []
      rfl (by decide) (by decide)).1

open SingleFileSeek in
/-- C7: both write sites of the seek engine follow the sparse-write rule.
For a leaf write: when the data has length at least 32 and is all zeros the
engine seeks forward `length - 1` from the current position and writes a
single zero byte, otherwise it writes the bytes verbatim. For a
back-reference copy: the same rule applied to the buffer read back from the
sink. -/
theorem claim_c7 :
    (∀ (write_limit fuel root : Nat) (st : SeekState) (cid : Cid) (d : List Byte)
       (block : FlatUnixFs),
      block.links = [] → ¬(cid = root ∧ block.typ ≠ .File) → block.dat = some d →
      st.sorted_links.first = some cid →
      st.total_bytes_written + d.length ≤ write_limit →
      ((32 ≤ d.length ∧ ∀ b ∈ d, b = 0) →
        processBlock write_limit fuel root st cid block =
          drainLoop write_limit fuel
            { nodes := (cid, .DataPtr st.out_ptr d.length) :: st.nodes,
              sorted_links := ⟨st.sorted_links.sorted_items, st.sorted_links.items_ptr + 1⟩,
              out_ptr := st.out_ptr + d.length,
              total_bytes_written := st.total_bytes_written + d.length,
              out := (st.out.seekCur (d.length - 1)).write [0] }) ∧
      (¬(32 ≤ d.length ∧ ∀ b ∈ d, b = 0) →
        processBlock write_limit fuel root st cid block =
          drainLoop write_limit fuel
            { nodes := (cid, .DataPtr st.out_ptr d.length) :: st.nodes,
              sorted_links := ⟨st.sorted_links.sorted_items, st.sorted_links.items_ptr + 1⟩,
              out_ptr := st.out_ptr + d.length,
              total_bytes_written := st.total_bytes_written + d.length,
              out := st.out.write d })) ∧
    (∀ (r : OutFile) (src dst size total limit : Nat),
      total + size ≤ limit → src + size ≤ r.data.length →
      ((32 ≤ size ∧ ∀ b ∈ (r.data.drop src).take size, b = 0) →
        copy_from_to_itself r src dst size total limit =
          .ok (((OutFile.mk r.data dst).seekCur (size - 1)).write [0], total + size)) ∧
      (¬(32 ≤ size ∧ ∀ b ∈ (r.data.drop src).take size, b = 0) →
        copy_from_to_itself r src dst size total limit =
          .ok ((OutFile.mk r.data dst).write ((r.data.drop src).take size), total + size))) := by
  constructor
  · intro write_limit fuel root st cid d block hleaf hroot hdat hfirst hlim
    have hfind : st.sorted_links.find cid = .IsNext := (find_isNext_iff _ _).mpr hfirst
    have hadv : st.sorted_links.advance = .ok ⟨st.sorted_links.sorted_items,
        st.sorted_links.items_ptr + 1⟩ :=
      advance_eq_ok _ (first_isSome_lt _ _ hfirst)
    have hif : ¬(write_limit < st.total_bytes_written + d.length) := by omega
    constructor
    · intro hsparse
      simp only [processBlock, hroot, hleaf, hfind, hdat, hif, hadv]
      simp only [if_neg hif, if_pos hsparse]
      simp [processBlock, hroot, hleaf, hfind, hdat, hif, hadv, if_pos hsparse]
    · intro hsparse
      simp [processBlock, hroot, hleaf, hfind, hdat, hif, hadv, if_neg hsparse]
  · intro r src dst size total limit hlim hread
    have hif : ¬(limit < total + size) := by omega
    have hbuf : ((r.data.drop src).take size).length = size := by
      rw [List.length_take, List.length_drop]
      omega
    have hex : (OutFile.seekStart r src).readExact size =
        some ((r.data.drop src).take size, ⟨r.data, src + size⟩) := by
      unfold OutFile.readExact OutFile.seekStart
      rw [if_pos (by simpa using hread)]
    constructor
    · intro hsparse
      have hcond : 32 ≤ ((r.data.drop src).take size).length ∧
          ∀ b ∈ (r.data.drop src).take size, b = 0 := by
        rw [hbuf]
        exact hsparse
      unfold copy_from_to_itself
      rw [if_neg hif, hex]
      simp only [hbuf]
      rw [if_pos hsparse]
      rfl
    · intro hsparse
      have hcond : ¬(32 ≤ ((r.data.drop src).take size).length ∧
          ∀ b ∈ (r.data.drop src).take size, b = 0) := by
        rw [hbuf]
        exact hsparse
      unfold copy_from_to_itself
      rw [if_neg hif, hex]
      simp only [if_neg hcond]
      rfl

open SingleFileSeek in
/-- Witness for C7: a 32-byte all-zero leaf is written as a forward seek of
31 bytes plus one zero byte, a 2-byte leaf is written verbatim, and the same
two shapes for the back-reference copy path. -/
theorem claim_c7_witness :
    (processBlock 64 1 1 (initState 1 ⟨[], 0⟩) 1 ⟨.File, some (List.replicate 32 0), []⟩ =
      drainLoop 64 1 ⟨[(1, .DataPtr 0 32)], ⟨[1], 1⟩, 32, 32,
        (OutFile.seekCur ⟨[], 0⟩ 31).write [0]⟩) ∧
    (processBlock 64 1 1 (initState 1 ⟨[], 0⟩) 1 ⟨.File, some [7, 8], []⟩ =
      drainLoop 64 1 ⟨[(1, .DataPtr 0 2)], ⟨[1], 1⟩, 2, 2, OutFile.write ⟨[], 0⟩ [7, 8]⟩) ∧
    (copy_from_to_itself ⟨List.replicate 32 0, 32⟩ 0 32 32 32 64 =
      .ok (((OutFile.mk (List.replicate 32 0) 32).seekCur 31).write [0], 64)) ∧
    (copy_from_to_itself ⟨[7, 8], 2⟩ 0 2 2 2 64 =
      .ok ((OutFile.mk [7, 8] 2).write [7, 8], 4)) := by
  refine ⟨?_, ?_, ?_, ?_⟩
  · have h := (claim_c7.1 64 1 1 (initState 1 ⟨[], 0⟩) 1 (List.replicate 32 0)
      ⟨.File, some (List.replicate 32 0), []⟩ rfl (by decide) rfl rfl (by decide)).1
      (by decide)
    simpa using h
  · have h := (claim_c7.1 64 1 1 (initState 1 ⟨[], 0⟩) 1 [7, 8]
      ⟨.File, some [7, 8], []⟩ rfl (by decide) rfl rfl (by decide)).2 (by decide)
    simpa using h
  · have h := (claim_c7.2 ⟨List.replicate 32 0, 32⟩ 0 32 32 32 64 (by decide)
      (by simp)).1 (by simp)
    simpa using h
  · have h := (claim_c7.2 ⟨[7, 8], 2⟩ 0 2 2 2 64 (by decide) (by decide)).2 (by decide)
    simpa using h

theorem writeBytesAt_length (data : List Byte) (pos : Nat) (bs : List Byte) :
    (writeBytesAt data pos bs).length = max data.length (pos + bs.length) := by
  unfold writeBytesAt
  simp only [List.length_append, List.length_take, List.length_drop, List.length_replicate]
  omega

open SingleFileSeek in
theorem writeStep_post (f : OutFile) (d : List Byte) :
    ((if 32 ≤ d.length ∧ ∀ b ∈ d, b = 0 then (f.seekCur (d.length - 1)).write [0]
      else f.write d) : OutFile).data.length = max f.data.length (f.pos + d.length) ∧
    ((if 32 ≤ d.length ∧ ∀ b ∈ d, b = 0 then (f.seekCur (d.length - 1)).write [0]
      else f.write d) : OutFile).pos = f.pos + d.length := by
  by_cases hsp : 32 ≤ d.length ∧ ∀ b ∈ d, b = 0
  · have h32 : 32 ≤ d.length := hsp.1
    rw [if_pos hsp]
    unfold OutFile.seekCur OutFile.write
    simp only [writeBytesAt_length, List.length_cons, List.length_nil]
    have heq : f.pos + (d.length - 1) + (0 + 1) = f.pos + d.length := by omega
    rw [heq]
    exact ⟨rfl, rfl⟩
  · rw [if_neg hsp]
    unfold OutFile.write
    simp only [writeBytesAt_length]
    exact ⟨trivial, trivial⟩

open SingleFileSeek in
theorem copy_cases (r : OutFile) (src dst size total K : Nat) (hK : ¬ K < total + size) :
    copy_from_to_itself r src dst size total K = .fail .IoError (⟨r.data, src⟩, total) ∨
    ∃ out', copy_from_to_itself r src dst size total K = .ok (out', total + size) ∧
      out'.data.length = max r.data.length (dst + size) ∧ out'.pos = dst + size := by
  by_cases hread : src + size ≤ r.data.length
  · right
    have hbuf : ((r.data.drop src).take size).length = size := by
      rw [List.length_take, List.length_drop]
      omega
    have hex : (OutFile.seekStart r src).readExact size =
        some ((r.data.drop src).take size, ⟨r.data, src + size⟩) := by
      unfold OutFile.readExact OutFile.seekStart
      rw [if_pos (by simpa using hread)]
    unfold copy_from_to_itself
    rw [if_neg hK]
    simp only [hex]
    by_cases hsp : 32 ≤ ((r.data.drop src).take size).length ∧
        ∀ b ∈ (r.data.drop src).take size, b = 0
    · have h32 : 32 ≤ size := by
        have := hsp.1
        omega
      refine ⟨(((OutFile.mk r.data (src + size)).seekStart dst).seekCur
          (((r.data.drop src).take size).length - 1)).write [0], ?_, ?_, ?_⟩
      · rw [if_pos hsp]
      · unfold OutFile.seekStart OutFile.seekCur OutFile.write
        simp only [writeBytesAt_length, List.length_cons, List.length_nil, hbuf]
        have heq : dst + (size - 1) + (0 + 1) = dst + size := by omega
        rw [heq]
      · unfold OutFile.seekStart OutFile.seekCur OutFile.write
        simp only [List.length_cons, List.length_nil, hbuf]
        omega
    · refine ⟨((OutFile.mk r.data (src + size)).seekStart dst).write
          ((r.data.drop src).take size), ?_, ?_, ?_⟩
      · rw [if_neg hsp]
      · unfold OutFile.seekStart OutFile.write
        simp only [writeBytesAt_length, hbuf]
      · unfold OutFile.seekStart OutFile.write
        simp only [hbuf]
  · left
    have hex : (OutFile.seekStart r src).readExact size = none := by
      unfold OutFile.readExact OutFile.seekStart
      rw [if_neg (by simpa using hread)]
    unfold copy_from_to_itself
    rw [if_neg hK]
    simp only [hex]
    rfl

open SingleFileSeek in
theorem advance_error_internal (s : SortedLinks) (e : ReadSingleFileError)
    (h : s.advance = .error e) : ∀ n, e ≠ .WriteLimitExceeded n := by
  intro n hn
  unfold SortedLinks.advance at h
  split at h
  · cases h
    cases hn
  · cases h

theorem assert_header_error (header : CarHeader) (rc : Option Cid) (e : ReadSingleFileError)
    (h : assert_header_single_file header rc = .error e) :
    e = .NotSingleRoot header.roots := by
  rcases rc with _ | r <;> simp only [assert_header_single_file] at h
  · by_cases hlen : header.roots.length = 1
    · rw [if_pos hlen] at h
      cases h
    · rw [if_neg hlen] at h
      cases h
      rfl
  · cases h

theorem links_to_cids_error :
    ∀ (links : List PBLink) (e : ReadSingleFileError),
      links_to_cids links = .error e → e = .PBLinkHasNoHash := by
  intro links
  induction links with
  | nil =>
    intro e h
    cases h
  | cons l rest ih =>
    intro e h
    unfold links_to_cids at h
    rcases hH : l.Hash with _ | hh <;> simp only [hH] at h
    · cases h
      rfl
    · simp only [hash_to_cid] at h
      rcases hrest : links_to_cids rest with e' | cs <;> simp only [hrest] at h
      · cases h
        exact ih _ hrest
      · cases h

open SingleFileSeek in
theorem drain_bound (K fuel : Nat) :
    ∀ (st : SeekState), SeekInv K st → RunBound K (drainLoop K fuel st) := by
  induction fuel with
  | zero =>
    intro st _
    trivial
  | succ fuel ih =>
    intro st hinv
    obtain ⟨hA, hB, hC, hD⟩ := hinv
    unfold drainLoop
    rcases hF : st.sorted_links.first with _ | c
    · exact ⟨hA, hB, hC, hD⟩
    · rcases hL : lookupNode st.nodes c with _ | ⟨ls⟩ | ⟨start, size⟩
      · simp only [hL]
        exact ⟨hA, hB, hC, hD⟩
      · simp only [hL]
        exact ih _ ⟨hA, hB, hC, hD⟩
      · simp only [hL]
        by_cases hK : K < st.total_bytes_written + size
        · rw [if_pos hK]
          refine ⟨hD, by omega, ?_⟩
          intro n hn
          cases hn
          omega
        · rw [if_neg hK]
          rcases copy_cases st.out start st.out_ptr size st.total_bytes_written K hK with
            hfail | ⟨out', hok, hlen, hpos⟩
          · simp only [hfail]
            refine ⟨hD, ?_, ?_⟩
            · show st.out.data.length ≤ K
              omega
            · intro n hn
              cases hn
          · simp only [hok]
            rcases hadv : st.sorted_links.advance with e | links'
            · simp only [hadv]
              refine ⟨?_, ?_, ?_⟩
              · show st.total_bytes_written + size ≤ K
                omega
              · show out'.data.length ≤ K
                rw [hlen]
                exact Nat.max_le.mpr ⟨by omega, by omega⟩
              · intro n hn
                exact absurd hn (advance_error_internal st.sorted_links e hadv n)
            · simp only [hadv]
              refine ih _ ⟨?_, ?_, ?_, ?_⟩
              · show st.total_bytes_written + size = st.out_ptr + size
                omega
              · show out'.pos ≤ st.out_ptr + size
                rw [hpos]
              · show out'.data.length ≤ st.out_ptr + size
                rw [hlen]
                exact Nat.max_le.mpr ⟨by omega, by omega⟩
              · show st.total_bytes_written + size ≤ K
                omega

open SingleFileSeek in
theorem processBlock_bound (K fuel root : Nat) (st : SeekState) (cid : Cid)
    (block : FlatUnixFs) (hinv : SeekInv K st) :
    RunBound K (processBlock K fuel root st cid block) := by
  obtain ⟨hA, hB, hC, hD⟩ := hinv
  by_cases hR : cid = root ∧ block.typ ≠ .File
  · have hstep : processBlock K fuel root st cid block = .fail .RootCidIsNotFile st := by
      unfold processBlock
      rw [if_pos hR]
    rw [hstep]
    exact ⟨hD, by omega, fun n hn => by cases hn⟩
  · by_cases hE : block.links.isEmpty
    · rcases hf : st.sorted_links.find cid with _ | _ | _
      · -- IsNext
        rcases hdat : block.dat with _ | d
        · have hstep : processBlock K fuel root st cid block =
              .fail (.InvalidUnixFs "unixfs data node has not Data field") st := by
            unfold processBlock
            rw [if_neg hR, if_pos hE]
            simp only [hf, hdat]
          rw [hstep]
          exact ⟨hD, by omega, fun n hn => by cases hn⟩
        · by_cases hK : K < st.total_bytes_written + d.length
          · have hstep : processBlock K fuel root st cid block =
                .fail (.WriteLimitExceeded (st.total_bytes_written + d.length)) st := by
              unfold processBlock
              rw [if_neg hR, if_pos hE]
              simp only [hf, hdat]
              rw [if_pos hK]
            rw [hstep]
            refine ⟨hD, by omega, ?_⟩
            intro n hn
            cases hn
            omega
          · have hpost := writeStep_post st.out d
            rcases hadv : st.sorted_links.advance with e | links'
            · have hstep : processBlock K fuel root st cid block =
                  .fail e { nodes := st.nodes, sorted_links := st.sorted_links,
                            out_ptr := st.out_ptr + d.length,
                            total_bytes_written := st.total_bytes_written + d.length,
                            out := if 32 ≤ d.length ∧ ∀ b ∈ d, b = 0 then
                                     (st.out.seekCur (d.length - 1)).write [0]
                                   else st.out.write d } := by
                unfold processBlock
                rw [if_neg hR, if_pos hE]
                simp only [hf, hdat, hadv]
                rw [if_neg hK]
              rw [hstep]
              refine ⟨?_, ?_, ?_⟩
              · show st.total_bytes_written + d.length ≤ K
                omega
              · show ((if 32 ≤ d.length ∧ ∀ b ∈ d, b = 0 then
                    (st.out.seekCur (d.length - 1)).write [0]
                  else st.out.write d) : OutFile).data.length ≤ K
                rw [hpost.1]
                exact Nat.max_le.mpr ⟨by omega, by omega⟩
              · intro n hn
                exact absurd hn (advance_error_internal st.sorted_links e hadv n)
            · have hstep : processBlock K fuel root st cid block =
                  drainLoop K fuel
                    { nodes := (cid, .DataPtr st.out_ptr d.length) :: st.nodes,
                      sorted_links := links',
                      out_ptr := st.out_ptr + d.length,
                      total_bytes_written := st.total_bytes_written + d.length,
                      out := if 32 ≤ d.length ∧ ∀ b ∈ d, b = 0 then
                               (st.out.seekCur (d.length - 1)).write [0]
                             else st.out.write d } := by
                unfold processBlock
                rw [if_neg hR, if_pos hE]
                simp only [hf, hdat, hadv]
                rw [if_neg hK]
              rw [hstep]
              refine drain_bound K fuel _ ⟨?_, ?_, ?_, ?_⟩
              · show st.total_bytes_written + d.length = st.out_ptr + d.length
                omega
              · show ((if 32 ≤ d.length ∧ ∀ b ∈ d, b = 0 then
                    (st.out.seekCur (d.length - 1)).write [0]
                  else st.out.write d) : OutFile).pos ≤ st.out_ptr + d.length
                rw [hpost.2]
                omega
              · show ((if 32 ≤ d.length ∧ ∀ b ∈ d, b = 0 then
                    (st.out.seekCur (d.length - 1)).write [0]
                  else st.out.write d) : OutFile).data.length ≤ st.out_ptr + d.length
                rw [hpost.1]
                exact Nat.max_le.mpr ⟨by omega, by omega⟩
              · show st.total_bytes_written + d.length ≤ K
                omega
      · -- NotNext
        have hstep : processBlock K fuel root st cid block = .fail .DataNodesNotSorted st := by
          unfold processBlock
          rw [if_neg hR, if_pos hE]
          simp only [hf]
        rw [hstep]
        exact ⟨hD, by omega, fun n hn => by cases hn⟩
      · -- Unknown
        have hstep : processBlock K fuel root st cid block = .ok st := by
          unfold processBlock
          rw [if_neg hR, if_pos hE]
          simp only [hf]
        rw [hstep]
        exact ⟨hA, hB, hC, hD⟩
    · rcases hl : links_to_cids block.links with e | cids
      · have hstep : processBlock K fuel root st cid block = .fail e st := by
          unfold processBlock
          rw [if_neg hR, if_neg hE]
          simp only [hl]
        rw [hstep]
        refine ⟨hD, by omega, ?_⟩
        intro n hn
        rw [links_to_cids_error block.links e hl] at hn
        cases hn
      · have hstep : processBlock K fuel root st cid block =
            drainLoop K fuel { st with nodes := (cid, .Links cids) :: st.nodes } := by
          unfold processBlock
          rw [if_neg hR, if_neg hE]
          simp only [hl]
        rw [hstep]
        exact drain_bound K fuel _ ⟨hA, hB, hC, hD⟩

open SingleFileSeek in
theorem runBlocks_bound (K fuel root : Nat) :
    ∀ (blocks : List (Cid × FlatUnixFs)) (st : SeekState), SeekInv K st →
      RunBound K (runBlocks K fuel root st blocks) := by
  intro blocks
  induction blocks with
  | nil =>
    intro st hinv
    exact hinv
  | cons b rest ih =>
    intro st hinv
    obtain ⟨cid, block⟩ := b
    unfold runBlocks
    have hpb := processBlock_bound K fuel root st cid block hinv
    rcases hp : processBlock K fuel root st cid block with st' | ⟨e, st'⟩ | _ | _ <;>
      rw [hp] at hpb <;> simp only [hp]
    · exact ih st' hpb
    · exact hpb
    · trivial
    · trivial

open SingleFileSeek in
/-- C5: for every run of the seek engine with `write_limit = K` from an empty
sink, the total number of logical bytes written never exceeds `K`: every leaf
write and every back-reference copy is guarded by a check of
`total_written + len` against `K`, so any final state — success or failure —
satisfies `total_bytes_written ≤ K` and has a sink of at most `K` bytes, and
a `WriteLimitExceeded(n)` failure reports the rejected total `n > K` while
the state at failure is still within the cap. -/
theorem claim_c5 (fuel K : Nat) (header : CarHeader) (blocks : List (Cid × FlatUnixFs))
    (root_cid : Option Cid) :
    (∀ st, read_single_file_seek fuel header blocks ⟨[], 0⟩ root_cid (some K) = .ok st →
      st.total_bytes_written ≤ K ∧ st.out.data.length ≤ K) ∧
    (∀ e st, read_single_file_seek fuel header blocks ⟨[], 0⟩ root_cid (some K) = .fail e st →
      st.total_bytes_written ≤ K ∧ st.out.data.length ≤ K ∧
      ∀ n, e = .WriteLimitExceeded n → K < n) := by
  have hrun : ∀ root, RunBound K (runBlocks K fuel root (initState root ⟨[], 0⟩) blocks) :=
    fun root => runBlocks_bound K fuel root blocks _
      ⟨rfl, Nat.le_refl 0, Nat.le_refl 0, Nat.zero_le K⟩
  unfold read_single_file_seek
  rcases hhdr : assert_header_single_file header root_cid with e | root
  · simp only [Option.getD_some, hhdr]
    constructor
    · intro st hst
      cases hst
    · intro e' st hst
      cases hst
      refine ⟨Nat.zero_le K, Nat.zero_le K, ?_⟩
      intro n hn
      rw [assert_header_error header root_cid e hhdr] at hn
      cases hn
  · simp only [Option.getD_some, hhdr]
    have h := hrun root
    rcases hr : runBlocks K fuel root (initState root ⟨[], 0⟩) blocks with
      st | ⟨e, st⟩ | _ | _ <;> rw [hr] at h <;> simp only [hr]
    · obtain ⟨hA, hB, hC, hD⟩ := h
      rcases hrem : st.sorted_links.remaining with _ | tail <;> simp only [hrem]
      · constructor
        · intro st' hst'
          cases hst'
          exact ⟨hD, by omega⟩
        · intro e' st' hst'
          cases hst'
      · constructor
        · intro st' hst'
          cases hst'
        · intro e' st' hst'
          cases hst'
          exact ⟨hD, by omega, fun n hn => by cases hn⟩
    · constructor
      · intro st' hst'
        cases hst'
      · intro e' st' hst'
        cases hst'
        exact h
    · constructor
      · intro st' hst'
        cases hst'
      · intro e' st' hst'
        cases hst'
    · constructor
      · intro st' hst'
        cases hst'
      · intro e' st' hst'
        cases hst'

open SingleFileSeek in
/-- Witness for C5: with `write_limit = 2`, a 3-byte leaf is rejected with
`WriteLimitExceeded 3` before any byte is written, and the reported total 3
exceeds the cap 2. -/
theorem claim_c5_witness :
    read_single_file_seek 2 ⟨[1]⟩ [(1, ⟨.File, some [5, 6, 7], []⟩)] ⟨[], 0⟩
      (some 1) (some 2) = .fail (.WriteLimitExceeded 3) (initState 1 ⟨[], 0⟩) ∧ 2 < 3 := by
  refine ⟨by rfl, ?_⟩
  have h := (claim_c5 2 2 ⟨[1]⟩ [(1, ⟨.File, some [5, 6, 7], []⟩)] (some 1)).2
    (.WriteLimitExceeded 3) (initState 1 ⟨[], 0⟩) (by rfl)
  exact h.2.2 3 rfl

theorem occsList_append (a b : List FileTree) :
    occsList (a ++ b) = occsList a ++ occsList b := by
  induction a with
  | nil => simp [occsList]
  | cons t ts ih => simp [occsList, ih]

theorem serializeTs_append (lab : FileTree → Cid) (a b : List FileTree) :
    serializeTs lab (a ++ b) = serializeTs lab a ++ serializeTs lab b := by
  induction a with
  | nil => simp [serializeTs]
  | cons t ts ih => simp [serializeTs, ih]

theorem flattenTs_append (a b : List FileTree) :
    flattenTs (a ++ b) = flattenTs a ++ flattenTs b := by
  induction a with
  | nil => simp [flattenTs]
  | cons t ts ih => simp [flattenTs, ih]

theorem sizeTs_append (a b : List FileTree) :
    sizeTs (a ++ b) = sizeTs a + sizeTs b := by
  induction a with
  | nil => simp [sizeTs]
  | cons t ts ih =>
    simp [sizeTs, ih]
    omega

theorem sizeT_pos (t : FileTree) : 1 ≤ sizeT t := by
  cases t <;> simp [sizeT]

theorem self_mem_occs (t : FileTree) : t ∈ occs t := by
  cases t <;> simp [occs]

theorem occs_sub_occsList (F : List FileTree) (t : FileTree) (ht : t ∈ F) :
    ∀ u ∈ occs t, u ∈ occsList F := by
  induction F with
  | nil => cases ht
  | cons s ss ih =>
    intro u hu
    rcases List.mem_cons.mp ht with rfl | hmem
    · simp only [occsList, List.mem_append]
      exact Or.inl hu
    · simp only [occsList, List.mem_append]
      exact Or.inr (ih hmem u hu)

theorem mem_occsList_of_mem (F : List FileTree) (t : FileTree) (ht : t ∈ F) :
    t ∈ occsList F :=
  occs_sub_occsList F t ht t (self_mem_occs t)

theorem depthT_le_depthTs (cs : List FileTree) (c : FileTree) (hc : c ∈ cs) :
    depthT c ≤ depthTs cs := by
  induction cs with
  | nil => cases hc
  | cons s ss ih =>
    rcases List.mem_cons.mp hc with rfl | hmem
    · simp [depthTs]
    · have := ih hmem
      simp only [depthTs]
      omega

theorem links_to_cids_map (lab : FileTree → Cid) (cs : List FileTree) :
    links_to_cids (cs.map (fun c => ⟨some (lab c)⟩)) = .ok (cs.map lab) := by
  induction cs with
  | nil => rfl
  | cons c rest ih =>
    simp only [List.map_cons]
    unfold links_to_cids
    simp only [hash_to_cid, ih]

theorem linksToCidsBuffered_map (lab : FileTree → Cid) (cs : List FileTree) :
    SingleFile.linksToCidsBuffered (cs.map (fun c => ⟨some (lab c)⟩)) =
      some (cs.map lab) := by
  induction cs with
  | nil => rfl
  | cons c rest ih =>
    simp only [List.map_cons]
    unfold SingleFile.linksToCidsBuffered
    simp only [ih]

theorem writeBytesAt_ge_length (data bs : List Byte) (p : Nat) (h : data.length ≤ p) :
    writeBytesAt data p bs = data ++ List.replicate (p - data.length) 0 ++ bs := by
  unfold writeBytesAt
  rw [List.take_of_length_le h, List.drop_of_length_le (by omega)]
  simp

theorem writeStep_at_end (data d : List Byte) :
    (if 32 ≤ d.length ∧ ∀ b ∈ d, b = 0 then
        ((⟨data, data.length⟩ : OutFile).seekCur (d.length - 1)).write [0]
      else (⟨data, data.length⟩ : OutFile).write d) =
      (⟨data ++ d, data.length + d.length⟩ : OutFile) := by
  by_cases hsp : 32 ≤ d.length ∧ ∀ b ∈ d, b = 0
  · rw [if_pos hsp]
    obtain ⟨h32, hz⟩ := hsp
    have hd : d = List.replicate d.length 0 := by
      rw [List.eq_replicate_iff]
      exact ⟨rfl, hz⟩
    have hstep : ((⟨data, data.length⟩ : OutFile).seekCur (d.length - 1)).write [0] =
        ⟨writeBytesAt data (data.length + (d.length - 1)) [0],
         data.length + (d.length - 1) + 1⟩ := rfl
    rw [hstep, writeBytesAt_ge_length _ _ _ (by omega)]
    have h1 : data.length + (d.length - 1) - data.length = d.length - 1 := by omega
    rw [h1]
    simp only [OutFile.mk.injEq]
    constructor
    · rw [List.append_assoc, ← List.replicate_succ']
      have h2 : d.length - 1 + 1 = d.length := by omega
      rw [h2, ← hd]
    · omega
  · rw [if_neg hsp]
    unfold OutFile.write
    rw [writeBytesAt_ge_length _ _ _ (Nat.le_refl _)]
    simp

namespace SingleFileSeek

theorem insert_replace_split (s : SortedLinks) (c : Cid) (children pre suf : List Cid)
    (hsplit : s.sorted_items = pre ++ c :: suf) (hpre : c ∉ pre) :
    s.insert_replace c children = ⟨pre ++ children ++ suf, s.items_ptr⟩ := by
  unfold SortedLinks.insert_replace
  have hfind : s.sorted_items.findIdx? (fun x => x == c) = some pre.length := by
    rw [hsplit, List.findIdx?_append]
    have hnone : pre.findIdx? (fun x => x == c) = none :=
      List.findIdx?_eq_none_iff.mpr (fun x hx => by
        simp only [beq_eq_false_iff_ne, ne_eq]
        rintro rfl
        exact hpre hx)
    simp [hnone, List.findIdx?_cons]
  rw [hfind]
  have htake : s.sorted_items.take pre.length = pre := by
    rw [hsplit]
    exact List.take_left pre (c :: suf)
  have hdrop : s.sorted_items.drop (pre.length + 1) = suf := by
    rw [hsplit]
    have : pre ++ c :: suf = (pre ++ [c]) ++ suf := by simp
    rw [this]
    exact List.drop_left' (by simp)
  simp only [htake, hdrop]

theorem first_of_append (pre l : List Cid) (k : Nat) :
    (SortedLinks.mk (pre ++ l) (pre.length + k)).first = l[k]? := by
  unfold SortedLinks.first
  show (pre ++ l)[pre.length + k]? = l[k]?
  rw [List.getElem?_append_right (by omega)]
  congr 1
  omega

theorem drain_break (K fuel : Nat) (st : SeekState)
    (h : ∀ c, st.sorted_links.first = some c → lookupNode st.nodes c = none) :
    drainLoop K (fuel + 1) st = .ok st := by
  unfold drainLoop
  rcases hF : st.sorted_links.first with _ | c
  · rfl
  · simp only [h c hF]

theorem drain_step_links (K fuel : Nat) (st : SeekState) (c : Cid) (ls : List Cid)
    (hF : st.sorted_links.first = some c)
    (hL : lookupNode st.nodes c = some (.Links ls)) :
    drainLoop K (fuel + 1) st =
      drainLoop K fuel { st with sorted_links := st.sorted_links.insert_replace c ls } := by
  conv_lhs => unfold drainLoop
  simp only [hF, hL]

theorem processBlock_leaf_step (K fuel root : Nat) (st : SeekState) (cid : Cid)
    (d : List Byte) (block : FlatUnixFs)
    (hleaf : block.links = []) (htyp : block.typ = .File)
    (hfirst : st.sorted_links.first = some cid) (hdat : block.dat = some d)
    (hlim : st.total_bytes_written + d.length ≤ K) :
    processBlock K fuel root st cid block =
      drainLoop K fuel
        { nodes := (cid, .DataPtr st.out_ptr d.length) :: st.nodes,
          sorted_links := ⟨st.sorted_links.sorted_items, st.sorted_links.items_ptr + 1⟩,
          out_ptr := st.out_ptr + d.length,
          total_bytes_written := st.total_bytes_written + d.length,
          out := if 32 ≤ d.length ∧ ∀ b ∈ d, b = 0 then
                   (st.out.seekCur (d.length - 1)).write [0]
                 else st.out.write d } := by
  have hroot : ¬(cid = root ∧ block.typ ≠ .File) := by simp [htyp]
  have hfind : st.sorted_links.find cid = .IsNext := (find_isNext_iff _ _).mpr hfirst
  have hadv : st.sorted_links.advance = .ok ⟨st.sorted_links.sorted_items,
      st.sorted_links.items_ptr + 1⟩ :=
    advance_eq_ok _ (first_isSome_lt _ _ hfirst)
  have hif : ¬(K < st.total_bytes_written + d.length) := by omega
  simp [processBlock, hroot, hleaf, hfind, hdat, hif, hadv]

theorem processBlock_links_step (K fuel root : Nat) (st : SeekState) (cid : Cid)
    (block : FlatUnixFs) (cids : List Cid)
    (hne : block.links.isEmpty = false) (htyp : block.typ = .File)
    (hl : links_to_cids block.links = .ok cids) :
    processBlock K fuel root st cid block =
      drainLoop K fuel { st with nodes := (cid, .Links cids) :: st.nodes } := by
  have hroot : ¬(cid = root ∧ block.typ ≠ .File) := by simp [htyp]
  unfold processBlock
  rw [if_neg hroot, if_neg (by simp [hne])]
  simp only [hl]

end SingleFileSeek

namespace SingleFileSeek

theorem lookupNode_cons_self (k : Cid) (v : UnixFsNode) (ns : List (Cid × UnixFsNode)) :
    lookupNode ((k, v) :: ns) k = some v := by
  unfold lookupNode
  rw [List.find?_cons_of_pos _ (by simp)]

theorem lookupNode_cons_ne (k : Cid) (v : UnixFsNode) (ns : List (Cid × UnixFsNode))
    (c : Cid) (h : k ≠ c) :
    lookupNode ((k, v) :: ns) c = lookupNode ns c := by
  unfold lookupNode
  rw [List.find?_cons_of_neg _ (by simp [h])]

theorem first_of_frontier (pre l : List Cid) :
    (SortedLinks.mk (pre ++ l) pre.length).first = l[0]? := by
  have h := first_of_append pre l 0
  simpa using h

end SingleFileSeek

theorem occsList_cons_leaf (d : List Byte) (F : List FileTree) :
    occsList (.leaf d :: F) = .leaf d :: occsList F := by
  simp [occsList, occs]

theorem occsList_cons_node (cs F : List FileTree) :
    occsList (.node cs :: F) = .node cs :: occsList (cs ++ F) := by
  simp [occsList, occs, occsList_append]

theorem flattenTs_cons_leaf (d : List Byte) (F : List FileTree) :
    flattenTs (.leaf d :: F) = d ++ flattenTs F := by
  simp [flattenTs, flattenT]

theorem flattenTs_cons_node (cs F : List FileTree) :
    flattenTs (.node cs :: F) = flattenTs (cs ++ F) := by
  simp [flattenTs, flattenT, flattenTs_append]

open SingleFileSeek in
/-- Main run lemma for the seek engine on a depth-first serialized forest:
from a state whose frontier is the forest's roots and whose sink holds the
bytes emitted so far, the block loop consumes the whole serialized stream,
appends exactly the forest's leaf-byte concatenation to the sink, and fully
consumes the frontier. -/
theorem runBlocks_serialized (lab : FileTree → Cid) (K root : Nat) :
    ∀ (n fuel : Nat) (F : List FileTree) (consumed : List Cid)
      (nodes : List (Cid × UnixFsNode)) (dataSoFar : List Byte),
      sizeTs F ≤ n →
      2 ≤ fuel →
      (∀ t ∈ F, Wf t) →
      ((occsList F).map lab).Nodup →
      (∀ t ∈ occsList F, lookupNode nodes (lab t) = none) →
      (∀ t ∈ occsList F, lab t ∉ consumed) →
      dataSoFar.length + (flattenTs F).length ≤ K →
      ∃ nodes' consumed',
        runBlocks K fuel root
          ⟨nodes, ⟨consumed ++ F.map lab, consumed.length⟩,
           dataSoFar.length, dataSoFar.length, ⟨dataSoFar, dataSoFar.length⟩⟩
          (serializeTs lab F) =
        .ok ⟨nodes', ⟨consumed', consumed'.length⟩,
             (dataSoFar ++ flattenTs F).length, (dataSoFar ++ flattenTs F).length,
             ⟨dataSoFar ++ flattenTs F, (dataSoFar ++ flattenTs F).length⟩⟩ := by
  intro n
  induction n with
  | zero =>
    intro fuel F consumed nodes dataSoFar hsize hfuel hwf hnodup hdisj hcons hK
    match F with
    | [] =>
      refine ⟨nodes, consumed, ?_⟩
      simp [serializeTs, flattenTs, runBlocks]
    | s :: F' =>
      exfalso
      have := sizeT_pos s
      simp only [sizeTs] at hsize
      omega
  | succ n ih =>
    intro fuel F consumed nodes dataSoFar hsize hfuel hwf hnodup hdisj hcons hK
    match F with
    | [] =>
      refine ⟨nodes, consumed, ?_⟩
      simp [serializeTs, flattenTs, runBlocks]
    | FileTree.leaf d :: F' =>
      obtain ⟨f, rfl⟩ : ∃ f, fuel = f + 1 := ⟨fuel - 1, by omega⟩
      have hnodup' : ((occsList F').map lab).Nodup := by
        rw [occsList_cons_leaf] at hnodup
        exact (List.nodup_cons.mp hnodup).2
      have hhead_notin : lab (FileTree.leaf d) ∉ (occsList F').map lab := by
        rw [occsList_cons_leaf] at hnodup
        exact (List.nodup_cons.mp hnodup).1
      have hfirst : (SortedLinks.mk (consumed ++ (lab (FileTree.leaf d) :: F'.map lab))
          consumed.length).first = some (lab (FileTree.leaf d)) := by
        rw [first_of_frontier]
        simp
      have hKd : dataSoFar.length + d.length ≤ K := by
        rw [flattenTs_cons_leaf, List.length_append] at hK
        omega
      have hpb : processBlock K (f + 1) root
          ⟨nodes, ⟨consumed ++ (lab (FileTree.leaf d) :: F'.map lab), consumed.length⟩,
           dataSoFar.length, dataSoFar.length, ⟨dataSoFar, dataSoFar.length⟩⟩
          (lab (FileTree.leaf d)) ⟨.File, some d, []⟩ =
          drainLoop K (f + 1)
            ⟨(lab (FileTree.leaf d), .DataPtr dataSoFar.length d.length) :: nodes,
             ⟨consumed ++ (lab (FileTree.leaf d) :: F'.map lab), consumed.length + 1⟩,
             dataSoFar.length + d.length, dataSoFar.length + d.length,
             ⟨dataSoFar ++ d, dataSoFar.length + d.length⟩⟩ := by
        have h := processBlock_leaf_step K (f + 1) root
          ⟨nodes, ⟨consumed ++ (lab (FileTree.leaf d) :: F'.map lab), consumed.length⟩,
           dataSoFar.length, dataSoFar.length, ⟨dataSoFar, dataSoFar.length⟩⟩
          (lab (FileTree.leaf d)) d ⟨.File, some d, []⟩ rfl rfl hfirst rfl hKd
        rw [h, writeStep_at_end]
      have hdrain : drainLoop K (f + 1)
          ⟨(lab (FileTree.leaf d), .DataPtr dataSoFar.length d.length) :: nodes,
           ⟨consumed ++ (lab (FileTree.leaf d) :: F'.map lab), consumed.length + 1⟩,
           dataSoFar.length + d.length, dataSoFar.length + d.length,
           ⟨dataSoFar ++ d, dataSoFar.length + d.length⟩⟩ =
          .ok ⟨(lab (FileTree.leaf d), .DataPtr dataSoFar.length d.length) :: nodes,
           ⟨consumed ++ (lab (FileTree.leaf d) :: F'.map lab), consumed.length + 1⟩,
           dataSoFar.length + d.length, dataSoFar.length + d.length,
           ⟨dataSoFar ++ d, dataSoFar.length + d.length⟩⟩ := by
        apply drain_break
        intro c hc
        rw [show (SortedLinks.mk
            (consumed ++ (lab (FileTree.leaf d) :: F'.map lab)) (consumed.length + 1)).first =
            (lab (FileTree.leaf d) :: F'.map lab)[1]? from
          first_of_append consumed (lab (FileTree.leaf d) :: F'.map lab) 1] at hc
        simp only [List.getElem?_cons_succ] at hc
        rcases F' with _ | ⟨u, rest⟩
        · simp at hc
        · simp only [List.map_cons, List.getElem?_cons_zero, Option.some.injEq] at hc
          subst hc
          have hu_occ : u ∈ occsList (u :: rest) :=
            mem_occsList_of_mem _ u (List.mem_cons_self u rest)
          have hne : lab (FileTree.leaf d) ≠ lab u := by
            intro hlabeq
            exact hhead_notin (hlabeq ▸ List.mem_map_of_mem lab hu_occ)
          rw [lookupNode_cons_ne _ _ _ _ hne]
          apply hdisj
          rw [occsList_cons_leaf]
          exact List.mem_cons_of_mem _ hu_occ
      have hrb : runBlocks K (f + 1) root
          ⟨nodes, ⟨consumed ++ (lab (FileTree.leaf d) :: F'.map lab), consumed.length⟩,
           dataSoFar.length, dataSoFar.length, ⟨dataSoFar, dataSoFar.length⟩⟩
          ((lab (FileTree.leaf d), ⟨.File, some d, []⟩) :: serializeTs lab F') =
          runBlocks K (f + 1) root
            ⟨(lab (FileTree.leaf d), .DataPtr dataSoFar.length d.length) :: nodes,
             ⟨consumed ++ (lab (FileTree.leaf d) :: F'.map lab), consumed.length + 1⟩,
             dataSoFar.length + d.length, dataSoFar.length + d.length,
             ⟨dataSoFar ++ d, dataSoFar.length + d.length⟩⟩ (serializeTs lab F') := by
        conv_lhs => unfold runBlocks
        simp only [hpb, hdrain]
      have hih := ih (f + 1) F' (consumed ++ [lab (FileTree.leaf d)])
        ((lab (FileTree.leaf d), UnixFsNode.DataPtr dataSoFar.length d.length) :: nodes)
        (dataSoFar ++ d)
        (by
          simp only [sizeTs, sizeT] at hsize ⊢
          omega)
        hfuel
        (fun t ht => hwf t (List.mem_cons_of_mem _ ht))
        hnodup'
        (by
          intro t ht
          have htocc : t ∈ occsList (FileTree.leaf d :: F') := by
            rw [occsList_cons_leaf]
            exact List.mem_cons_of_mem _ ht
          have hne : lab (FileTree.leaf d) ≠ lab t := by
            intro hlabeq
            exact hhead_notin (hlabeq ▸ List.mem_map_of_mem lab ht)
          rw [lookupNode_cons_ne _ _ _ _ hne]
          exact hdisj t htocc)
        (by
          intro t ht hmem
          rcases List.mem_append.mp hmem with hmem | hmem
          · exact hcons t (by rw [occsList_cons_leaf]; exact List.mem_cons_of_mem _ ht) hmem
          · have : lab t = lab (FileTree.leaf d) := by simpa using hmem
            exact hhead_notin (this ▸ List.mem_map_of_mem lab ht))
        (by
          rw [flattenTs_cons_leaf] at hK
          simp only [List.length_append] at hK ⊢
          omega)
      obtain ⟨nodes', consumed', heq⟩ := hih
      have hstate : (⟨(lab (FileTree.leaf d), UnixFsNode.DataPtr dataSoFar.length d.length) :: nodes,
          ⟨(consumed ++ [lab (FileTree.leaf d)]) ++ F'.map lab,
           (consumed ++ [lab (FileTree.leaf d)]).length⟩,
          (dataSoFar ++ d).length, (dataSoFar ++ d).length,
          ⟨dataSoFar ++ d, (dataSoFar ++ d).length⟩⟩ : SeekState) =
          ⟨(lab (FileTree.leaf d), UnixFsNode.DataPtr dataSoFar.length d.length) :: nodes,
           ⟨consumed ++ (lab (FileTree.leaf d) :: F'.map lab), consumed.length + 1⟩,
           dataSoFar.length + d.length, dataSoFar.length + d.length,
           ⟨dataSoFar ++ d, dataSoFar.length + d.length⟩⟩ := by
        simp
      rw [hstate] at heq
      refine ⟨nodes', consumed', ?_⟩
      rw [show serializeTs lab (FileTree.leaf d :: F') =
          (lab (FileTree.leaf d), (⟨.File, some d, []⟩ : FlatUnixFs)) :: serializeTs lab F' from
        by simp [serializeTs, serializeT], show (FileTree.leaf d :: F').map lab =
          lab (FileTree.leaf d) :: F'.map lab from by simp]
      rw [hrb, heq]
      simp [flattenTs_cons_leaf]
    | FileTree.node cs :: F' =>
      obtain ⟨f, rfl⟩ : ∃ f, fuel = f + 2 := ⟨fuel - 2, by omega⟩
      obtain ⟨hne, hwfcs⟩ : cs ≠ [] ∧ ∀ c ∈ cs, Wf c := by
        have hwfnode := hwf (FileTree.node cs) (List.mem_cons_self _ _)
        cases hwfnode with
        | node _ hne h => exact ⟨hne, h⟩
      have hnodup' : ((occsList (cs ++ F')).map lab).Nodup := by
        rw [occsList_cons_node] at hnodup
        exact (List.nodup_cons.mp hnodup).2
      have hhead_notin : lab (FileTree.node cs) ∉ (occsList (cs ++ F')).map lab := by
        rw [occsList_cons_node] at hnodup
        exact (List.nodup_cons.mp hnodup).1
      have hfirst : (SortedLinks.mk (consumed ++ (lab (FileTree.node cs) :: F'.map lab))
          consumed.length).first = some (lab (FileTree.node cs)) := by
        rw [first_of_frontier]
        simp
      have hpb : processBlock K (f + 2) root
          ⟨nodes, ⟨consumed ++ (lab (FileTree.node cs) :: F'.map lab), consumed.length⟩,
           dataSoFar.length, dataSoFar.length, ⟨dataSoFar, dataSoFar.length⟩⟩
          (lab (FileTree.node cs))
          ⟨.File, none, cs.map (fun c => ⟨some (lab c)⟩)⟩ =
          drainLoop K (f + 2)
            ⟨(lab (FileTree.node cs), .Links (cs.map lab)) :: nodes,
             ⟨consumed ++ (lab (FileTree.node cs) :: F'.map lab), consumed.length⟩,
             dataSoFar.length, dataSoFar.length, ⟨dataSoFar, dataSoFar.length⟩⟩ := by
        rw [processBlock_links_step K (f + 2) root _ _ _ (cs.map lab)
          (by simp [List.isEmpty_eq_false, hne]) rfl (links_to_cids_map lab cs)]
      have hdrain1 : drainLoop K (f + 2)
          ⟨(lab (FileTree.node cs), .Links (cs.map lab)) :: nodes,
           ⟨consumed ++ (lab (FileTree.node cs) :: F'.map lab), consumed.length⟩,
           dataSoFar.length, dataSoFar.length, ⟨dataSoFar, dataSoFar.length⟩⟩ =
          drainLoop K (f + 1)
            ⟨(lab (FileTree.node cs), .Links (cs.map lab)) :: nodes,
             ⟨consumed ++ (cs ++ F').map lab, consumed.length⟩,
             dataSoFar.length, dataSoFar.length, ⟨dataSoFar, dataSoFar.length⟩⟩ := by
        rw [drain_step_links K (f + 1) _ (lab (FileTree.node cs)) (cs.map lab) hfirst
          (lookupNode_cons_self _ _ _)]
        rw [insert_replace_split _ _ _ consumed (F'.map lab) rfl
          (hcons (FileTree.node cs) (by
            rw [occsList_cons_node]
            exact List.mem_cons_self _ _))]
        simp [List.append_assoc]
      have hdrain2 : drainLoop K (f + 1)
          ⟨(lab (FileTree.node cs), .Links (cs.map lab)) :: nodes,
           ⟨consumed ++ (cs ++ F').map lab, consumed.length⟩,
           dataSoFar.length, dataSoFar.length, ⟨dataSoFar, dataSoFar.length⟩⟩ =
          .ok ⟨(lab (FileTree.node cs), .Links (cs.map lab)) :: nodes,
           ⟨consumed ++ (cs ++ F').map lab, consumed.length⟩,
           dataSoFar.length, dataSoFar.length, ⟨dataSoFar, dataSoFar.length⟩⟩ := by
        apply drain_break
        intro c hc
        rw [first_of_frontier] at hc
        rcases hG : cs ++ F' with _ | ⟨u, rest⟩
        · rw [hG] at hc
          simp at hc
        · rw [hG] at hc
          simp only [List.map_cons, List.getElem?_cons_zero, Option.some.injEq] at hc
          subst hc
          have hu_occ : u ∈ occsList (cs ++ F') := by
            rw [hG]
            exact mem_occsList_of_mem _ u (List.mem_cons_self u rest)
          have hneq : lab (FileTree.node cs) ≠ lab u := by
            intro hlabeq
            exact hhead_notin (hlabeq ▸ List.mem_map_of_mem lab hu_occ)
          rw [lookupNode_cons_ne _ _ _ _ hneq]
          apply hdisj
          rw [occsList_cons_node]
          exact List.mem_cons_of_mem _ hu_occ
      have hrb : runBlocks K (f + 2) root
          ⟨nodes, ⟨consumed ++ (lab (FileTree.node cs) :: F'.map lab), consumed.length⟩,
           dataSoFar.length, dataSoFar.length, ⟨dataSoFar, dataSoFar.length⟩⟩
          ((lab (FileTree.node cs), (⟨.File, none,
              cs.map (fun c => ⟨some (lab c)⟩)⟩ : FlatUnixFs)) ::
            serializeTs lab (cs ++ F')) =
          runBlocks K (f + 2) root
            ⟨(lab (FileTree.node cs), .Links (cs.map lab)) :: nodes,
             ⟨consumed ++ (cs ++ F').map lab, consumed.length⟩,
             dataSoFar.length, dataSoFar.length, ⟨dataSoFar, dataSoFar.length⟩⟩
            (serializeTs lab (cs ++ F')) := by
        conv_lhs => unfold runBlocks
        simp only [hpb, hdrain1, hdrain2]
      have hih := ih (f + 2) (cs ++ F') consumed
        ((lab (FileTree.node cs), UnixFsNode.Links (cs.map lab)) :: nodes) dataSoFar
        (by
          simp only [sizeTs, sizeT] at hsize
          rw [sizeTs_append]
          omega)
        hfuel
        (by
          intro t ht
          rcases List.mem_append.mp ht with ht | ht
          · exact hwfcs t ht
          · exact hwf t (List.mem_cons_of_mem _ ht))
        hnodup'
        (by
          intro t ht
          have hneq : lab (FileTree.node cs) ≠ lab t := by
            intro hlabeq
            exact hhead_notin (hlabeq ▸ List.mem_map_of_mem lab ht)
          rw [lookupNode_cons_ne _ _ _ _ hneq]
          apply hdisj
          rw [occsList_cons_node]
          exact List.mem_cons_of_mem _ ht)
        (by
          intro t ht
          apply hcons
          rw [occsList_cons_node]
          exact List.mem_cons_of_mem _ ht)
        (by
          rw [flattenTs_cons_node] at hK
          exact hK)
      obtain ⟨nodes', consumed', heq⟩ := hih
      refine ⟨nodes', consumed', ?_⟩
      rw [show serializeTs lab (FileTree.node cs :: F') =
          (lab (FileTree.node cs), (⟨.File, none,
            cs.map (fun c => ⟨some (lab c)⟩)⟩ : FlatUnixFs)) :: serializeTs lab (cs ++ F') from
        by simp [serializeTs, serializeT, serializeTs_append],
        show (FileTree.node cs :: F').map lab = lab (FileTree.node cs) :: F'.map lab from
        by simp]
      rw [hrb, heq]
      rw [flattenTs_cons_node]

theorem records_cons_leaf (lab : FileTree → Cid) (d : List Byte) (F : List FileTree) :
    records lab (.leaf d :: F) = (lab (.leaf d), .Data d) :: records lab F := by
  simp [records, occsList_cons_leaf, nodeRecord]

theorem records_cons_node (lab : FileTree → Cid) (cs F : List FileTree) :
    records lab (.node cs :: F) =
      (lab (.node cs), .Links (cs.map lab)) :: records lab (cs ++ F) := by
  simp [records, occsList_cons_node, nodeRecord]

theorem records_key_map (lab : FileTree → Cid) (F : List FileTree) :
    (records lab F).map Prod.fst = (occsList F).map lab := by
  simp [records, List.map_map]

namespace SingleFile

theorem lookupNodeBuf_cons_self (k : Cid) (v : UnixFsNode) (ns : List (Cid × UnixFsNode)) :
    lookupNode ((k, v) :: ns) k = some v := by
  unfold lookupNode
  rw [List.find?_cons_of_pos _ (by simp)]

theorem lookupNodeBuf_cons_ne (k : Cid) (v : UnixFsNode) (ns : List (Cid × UnixFsNode))
    (c : Cid) (h : k ≠ c) :
    lookupNode ((k, v) :: ns) c = lookupNode ns c := by
  unfold lookupNode
  rw [List.find?_cons_of_neg _ (by simp [h])]

theorem lookup_of_nodup :
    ∀ (l : List (Cid × UnixFsNode)) (c : Cid) (v : UnixFsNode),
      (l.map Prod.fst).Nodup → (c, v) ∈ l → lookupNode l c = some v := by
  intro l
  induction l with
  | nil =>
    intro c v _ hmem
    cases hmem
  | cons p rest ih =>
    intro c v hnodup hmem
    obtain ⟨k, w⟩ := p
    rcases List.mem_cons.mp hmem with heq | hmem'
    · cases heq
      exact lookupNodeBuf_cons_self _ _ _
    · have hk : k ≠ c := by
        intro rfl'
        subst rfl'
        have : k ∈ rest.map Prod.fst := by
          exact List.mem_map_of_mem Prod.fst hmem'
        exact (List.nodup_cons.mp hnodup).1 this
      rw [lookupNodeBuf_cons_ne _ _ _ _ hk]
      exact ih c v (List.nodup_cons.mp hnodup).2 hmem'

end SingleFile

open SingleFile in
/-- The collection phase of the buffered engine on a depth-first serialized
forest accumulates exactly one node record per node occurrence, most recent
first, and never touches the buffered-bytes counter when no cap is set. -/
theorem collectBlocks_serialized (lab : FileTree → Cid) (root : Nat) :
    ∀ (n : Nat) (F : List FileTree), sizeTs F ≤ n → (∀ t ∈ F, Wf t) →
      ∀ (ns : List (Cid × SingleFile.UnixFsNode)) (bl : Nat),
        collectBlocks root none ⟨ns, bl⟩ (serializeTs lab F) =
          .ok ⟨(records lab F).reverse ++ ns, bl⟩ := by
  intro n
  induction n with
  | zero =>
    intro F hsize hwf ns bl
    match F with
    | [] => simp [serializeTs, collectBlocks, records, occsList]
    | s :: F' =>
      exfalso
      have := sizeT_pos s
      simp only [sizeTs] at hsize
      omega
  | succ n ih =>
    intro F hsize hwf ns bl
    match F with
    | [] => simp [serializeTs, collectBlocks, records, occsList]
    | FileTree.leaf d :: F' =>
      have hstream : serializeTs lab (FileTree.leaf d :: F') =
          (lab (FileTree.leaf d), (⟨.File, some d, []⟩ : FlatUnixFs)) ::
            serializeTs lab F' := by
        simp [serializeTs, serializeT]
      rw [hstream]
      have hstep : collectBlocks root none ⟨ns, bl⟩
          ((lab (FileTree.leaf d), (⟨.File, some d, []⟩ : FlatUnixFs)) ::
            serializeTs lab F') =
          collectBlocks root none ⟨(lab (FileTree.leaf d), .Data d) :: ns, bl⟩
            (serializeTs lab F') := by
        conv_lhs => unfold collectBlocks
        rw [if_neg (by simp)]
        simp
      rw [hstep, ih F' (by simp only [sizeTs, sizeT] at hsize; omega)
        (fun t ht => hwf t (List.mem_cons_of_mem _ ht)) _ bl]
      rw [records_cons_leaf]
      simp

    | FileTree.node cs :: F' =>
      obtain ⟨hne, hwfcs⟩ : cs ≠ [] ∧ ∀ c ∈ cs, Wf c := by
        have hwfnode := hwf (FileTree.node cs) (List.mem_cons_self _ _)
        cases hwfnode with
        | node _ hne h => exact ⟨hne, h⟩
      have hstream : serializeTs lab (FileTree.node cs :: F') =
          (lab (FileTree.node cs), (⟨.File, none,
            cs.map (fun c => ⟨some (lab c)⟩)⟩ : FlatUnixFs)) ::
            serializeTs lab (cs ++ F') := by
        simp [serializeTs, serializeT, serializeTs_append]
      rw [hstream]
      have hlen : ¬((cs.map (fun c => (⟨some (lab c)⟩ : PBLink))).length = 0) := by
        simp [hne]
      have hstep : collectBlocks root none ⟨ns, bl⟩
          ((lab (FileTree.node cs), (⟨.File, none,
            cs.map (fun c => ⟨some (lab c)⟩)⟩ : FlatUnixFs)) ::
            serializeTs lab (cs ++ F')) =
          collectBlocks root none
            ⟨(lab (FileTree.node cs), .Links (cs.map lab)) :: ns, bl⟩
            (serializeTs lab (cs ++ F')) := by
        conv_lhs => unfold collectBlocks
        rw [if_neg (by simp), if_neg hlen]
        simp only [linksToCidsBuffered_map]
      rw [hstep, ih (cs ++ F')
        (by
          simp only [sizeTs, sizeT] at hsize
          rw [sizeTs_append]
          omega)
        (by
          intro t ht
          rcases List.mem_append.mp ht with ht | ht
          · exact hwfcs t ht
          · exact hwf t (List.mem_cons_of_mem _ ht)) _ bl]
      rw [records_cons_node]
      simp

open SingleFile in
/-- Walking `flatten_tree` over a node map that holds the record of every
occurrence of a serialized tree yields its leaf payloads in depth-first
order; stated together with the corresponding fact for the children loop. -/
theorem flatten_tree_serialized (lab : FileTree → Cid)
    (NODES : List (Cid × SingleFile.UnixFsNode)) :
    ∀ (n : Nat),
      (∀ t, sizeT t ≤ n → Wf t → ∀ fuel, depthT t < fuel →
        (∀ u ∈ occs t, lookupNode NODES (lab u) = some (nodeRecord lab u)) →
        flatten_tree fuel NODES (lab t) = some (.ok (leafDatas t))) ∧
      (∀ cs, sizeTs cs ≤ n → (∀ c ∈ cs, Wf c) → ∀ fuel, depthTs cs < fuel →
        (∀ u ∈ occsList cs, lookupNode NODES (lab u) = some (nodeRecord lab u)) →
        flattenChildren (flatten_tree fuel NODES) (cs.map lab) =
          some (.ok (leafDatasList cs))) := by
  intro n
  induction n with
  | zero =>
    constructor
    · intro t hsize
      exfalso
      have := sizeT_pos t
      omega
    · intro cs hsize hwf fuel hdepth hlook
      match cs with
      | [] => simp [flattenChildren, leafDatasList]
      | c :: rest =>
        exfalso
        have := sizeT_pos c
        simp only [sizeTs] at hsize
        omega
  | succ n ih =>
    have part1 : ∀ t, sizeT t ≤ n + 1 → Wf t → ∀ fuel, depthT t < fuel →
        (∀ u ∈ occs t, lookupNode NODES (lab u) = some (nodeRecord lab u)) →
        flatten_tree fuel NODES (lab t) = some (.ok (leafDatas t)) := by
      intro t hsize hwfT fuel hdepth hlook
      have hd1 : 1 ≤ depthT t := by
        cases t <;> simp [depthT]
      obtain ⟨f, rfl⟩ : ∃ f, fuel = f + 1 := ⟨fuel - 1, by omega⟩
      cases t with
      | leaf d =>
        have hl := hlook _ (self_mem_occs (.leaf d))
        unfold flatten_tree
        rw [hl]
        simp [nodeRecord, leafDatas]
      | node cs =>
        obtain ⟨hne, hwfcs⟩ : cs ≠ [] ∧ ∀ c ∈ cs, Wf c := by
          cases hwfT with
          | node _ hne h => exact ⟨hne, h⟩
        have hl := hlook _ (self_mem_occs (.node cs))
        unfold flatten_tree
        rw [hl]
        simp only [nodeRecord]
        have hch := ih.2 cs
          (by simp only [sizeT] at hsize; omega)
          hwfcs f
          (by simp only [depthT] at hdepth; omega)
          (by
            intro u hu
            apply hlook
            simp only [occs]
            exact List.mem_cons_of_mem _ hu)
        rw [hch]
        simp [leafDatas]
    refine ⟨part1, ?_⟩
    intro cs
    induction cs with
    | nil =>
      intro _ _ fuel _ _
      simp [flattenChildren, leafDatasList]
    | cons c rest ihc =>
      intro hsize hwf fuel hdepth hlook
      have hsc : sizeT c ≤ n + 1 := by
        have := sizeT_pos c
        simp only [sizeTs] at hsize
        omega
      have hdc : depthT c < fuel := by
        have := depthT_le_depthTs (c :: rest) c (List.mem_cons_self _ _)
        omega
      have h1 := part1 c hsc (hwf c (List.mem_cons_self _ _)) fuel hdc
        (by
          intro u hu
          apply hlook
          simp only [occsList, List.mem_append]
          exact Or.inl hu)
      have h2 := ihc
        (by
          have := sizeT_pos c
          simp only [sizeTs] at hsize
          omega)
        (fun x hx => hwf x (List.mem_cons_of_mem _ hx))
        fuel
        (by
          simp only [depthTs] at hdepth
          omega)
        (by
          intro u hu
          apply hlook
          simp only [occsList, List.mem_append]
          exact Or.inr hu)
      simp only [List.map_cons]
      conv_lhs => unfold flattenChildren
      rw [h1, h2]
      simp [leafDatasList]

theorem leafDatas_join :
    ∀ (n : Nat),
      (∀ t, sizeT t ≤ n → (leafDatas t).flatten = flattenT t) ∧
      (∀ cs, sizeTs cs ≤ n → (leafDatasList cs).flatten = flattenTs cs) := by
  intro n
  induction n with
  | zero =>
    constructor
    · intro t hsize
      exfalso
      have := sizeT_pos t
      omega
    · intro cs hsize
      match cs with
      | [] => simp [leafDatasList, flattenTs]
      | c :: rest =>
        exfalso
        have := sizeT_pos c
        simp only [sizeTs] at hsize
        omega
  | succ n ih =>
    have part1 : ∀ t, sizeT t ≤ n + 1 → (leafDatas t).flatten = flattenT t := by
      intro t hsize
      cases t with
      | leaf d => simp [leafDatas, flattenT]
      | node cs =>
        have := ih.2 cs (by simp only [sizeT] at hsize; omega)
        simp only [leafDatas, flattenT]
        exact this
    refine ⟨part1, ?_⟩
    intro cs
    induction cs with
    | nil => simp [leafDatasList, flattenTs]
    | cons c rest ihc =>
      intro hsize
      have h1 := part1 c (by
        have := sizeT_pos c
        simp only [sizeTs] at hsize
        omega)
      have h2 := ihc (by
        have := sizeT_pos c
        simp only [sizeTs] at hsize
        omega)
      simp only [leafDatasList, flattenTs, List.flatten_append, h1, h2]

open SingleFile in
/-- The buffered engine on a depth-first serialized tree: collection builds
the full node map, and the depth-first walk emits the tree's leaf bytes. -/
theorem buffered_serialized (lab : FileTree → Cid) (t : FileTree) (fuel : Nat)
    (header : CarHeader) (hwf : Wf t) (hnodup : ((occs t).map lab).Nodup)
    (hdepth : depthT t < fuel) :
    read_single_file_buffered fuel header (serializeT lab t) [] (some (lab t)) none =
      .ok (flattenT t) := by
  have hser : serializeT lab t = serializeTs lab [t] := by
    simp [serializeTs]
  have hcol := collectBlocks_serialized lab (lab t) (sizeTs [t]) [t] le_rfl
    (by
      intro x hx
      rw [List.mem_singleton] at hx
      subst hx
      exact hwf) [] 0
  simp only [List.append_nil] at hcol
  have hlook : ∀ u ∈ occs t,
      lookupNode ((records lab [t]).reverse) (lab u) = some (nodeRecord lab u) := by
    intro u hu
    apply lookup_of_nodup
    · rw [List.map_reverse, records_key_map]
      rw [List.nodup_reverse]
      simpa [occsList] using hnodup
    · rw [List.mem_reverse]
      unfold records
      apply List.mem_map_of_mem
      simpa [occsList] using hu
  have hflat := (flatten_tree_serialized lab ((records lab [t]).reverse) (sizeT t)).1
    t le_rfl hwf fuel hdepth hlook
  have hjoin := (leafDatas_join (sizeT t)).1 t le_rfl
  unfold read_single_file_buffered
  rw [hser]
  simp only [hcol]
  rw [hflat]
  simp [hjoin]

/-! Machinery for the deduplicated serialization: equations of `dedupSer`,
closure of well-formedness and size over occurrences, preservation of the
seek records under sink growth and map growth, the end-of-file behaviour of
`copy_from_to_itself`, and the ordering invariant of a deduplicated walk. -/

theorem dedupSer_nil (lab : FileTree → Cid) (SL : List Cid) :
    dedupSer lab SL [] = [] := by
  conv_lhs => unfold dedupSer

theorem dedupSer_leaf_seen (lab : FileTree → Cid) (SL : List Cid) (d : List Byte)
    (F : List FileTree) (h : lab (.leaf d) ∈ SL) :
    dedupSer lab SL (.leaf d :: F) = dedupSer lab SL F := by
  conv_lhs => unfold dedupSer
  rw [if_pos h]

theorem dedupSer_leaf_not_seen (lab : FileTree → Cid) (SL : List Cid) (d : List Byte)
    (F : List FileTree) (h : lab (.leaf d) ∉ SL) :
    dedupSer lab SL (.leaf d :: F) =
      (lab (.leaf d), ⟨.File, some d, []⟩) :: dedupSer lab (lab (.leaf d) :: SL) F := by
  conv_lhs => unfold dedupSer
  rw [if_neg h]

theorem dedupSer_node_seen (lab : FileTree → Cid) (SL : List Cid) (cs : List FileTree)
    (F : List FileTree) (h : lab (.node cs) ∈ SL) :
    dedupSer lab SL (.node cs :: F) = dedupSer lab SL F := by
  conv_lhs => unfold dedupSer
  rw [if_pos h]

theorem dedupSer_node_not_seen (lab : FileTree → Cid) (SL : List Cid) (cs : List FileTree)
    (F : List FileTree) (h : lab (.node cs) ∉ SL) :
    dedupSer lab SL (.node cs :: F) =
      (lab (.node cs), ⟨.File, none, cs.map (fun c => ⟨some (lab c)⟩)⟩) ::
        dedupSer lab (lab (.node cs) :: SL) (cs ++ F) := by
  conv_lhs => unfold dedupSer
  rw [if_neg h]

/-- Well-formedness is inherited by every node occurrence of a tree (stated
jointly for trees and forests, by strong induction on the size). -/
theorem wf_occs_all : ∀ n : Nat,
    (∀ t, sizeT t ≤ n → Wf t → ∀ u ∈ occs t, Wf u) ∧
    (∀ F, sizeTs F ≤ n → (∀ x ∈ F, Wf x) → ∀ u ∈ occsList F, Wf u) := by
  intro n
  induction n with
  | zero =>
    constructor
    · intro t hs
      have := sizeT_pos t
      omega
    · intro F hs hwf u hu
      match F with
      | [] => simp [occsList] at hu
      | x :: F' =>
        exfalso
        have := sizeT_pos x
        simp only [sizeTs] at hs
        omega
  | succ n ih =>
    have part1 : ∀ t, sizeT t ≤ n + 1 → Wf t → ∀ u ∈ occs t, Wf u := by
      intro t hs hwf u hu
      match t with
      | FileTree.leaf d =>
        simp only [occs, List.mem_singleton] at hu
        subst hu
        exact hwf
      | FileTree.node cs =>
        simp only [occs, List.mem_cons] at hu
        rcases hu with rfl | hu
        · exact hwf
        · rcases hwf with _ | ⟨_, hne, hcs⟩
          exact ih.2 cs (by simp only [sizeT] at hs; omega) hcs u hu
    refine ⟨part1, ?_⟩
    intro F
    induction F with
    | nil =>
      intro _ _ u hu
      simp [occsList] at hu
    | cons x F' ihF =>
      intro hs hwf u hu
      simp only [occsList] at hu
      rcases List.mem_append.mp hu with hu | hu
      · exact part1 x (by simp only [sizeTs] at hs; have := sizeT_pos x; omega)
          (hwf x (List.mem_cons_self _ _)) u hu
      · exact ihF (by simp only [sizeTs] at hs; have := sizeT_pos x; omega)
          (fun y hy => hwf y (List.mem_cons_of_mem _ hy)) u hu

/-- The size of any node occurrence is bounded by the size of the tree (and
of the forest) it occurs in. -/
theorem sizeT_occs_all : ∀ n : Nat,
    (∀ t, sizeT t ≤ n → ∀ u ∈ occs t, sizeT u ≤ sizeT t) ∧
    (∀ F, sizeTs F ≤ n → ∀ u ∈ occsList F, sizeT u ≤ sizeTs F) := by
  intro n
  induction n with
  | zero =>
    constructor
    · intro t hs
      have := sizeT_pos t
      omega
    · intro F hs u hu
      match F with
      | [] => simp [occsList] at hu
      | x :: F' =>
        exfalso
        have := sizeT_pos x
        simp only [sizeTs] at hs
        omega
  | succ n ih =>
    have part1 : ∀ t, sizeT t ≤ n + 1 → ∀ u ∈ occs t, sizeT u ≤ sizeT t := by
      intro t hs u hu
      match t with
      | FileTree.leaf d =>
        simp only [occs, List.mem_singleton] at hu
        subst hu
        exact le_rfl
      | FileTree.node cs =>
        simp only [occs, List.mem_cons] at hu
        rcases hu with rfl | hu
        · exact le_rfl
        · have := ih.2 cs (by simp only [sizeT] at hs; omega) u hu
          simp only [sizeT]
          omega
    refine ⟨part1, ?_⟩
    intro F
    induction F with
    | nil =>
      intro _ u hu
      simp [occsList] at hu
    | cons x F' ihF =>
      intro hs u hu
      simp only [occsList] at hu
      simp only [sizeTs]
      rcases List.mem_append.mp hu with hu | hu
      · have := part1 x (by simp only [sizeTs] at hs; have := sizeT_pos x; omega) u hu
        omega
      · have := ihF (by simp only [sizeTs] at hs; have := sizeT_pos x; omega) u hu
        omega

theorem memOfGetElem {α : Type} (l : List α) (i : Nat) (a : α) (h : l[i]? = some a) :
    a ∈ l := by
  obtain ⟨hlt, rfl⟩ := List.getElem?_eq_some.mp h
  exact List.getElem_mem hlt

open SingleFileSeek in
/-- A seek record stays valid when the sink grows at the end. -/
theorem seekRec_mono (lab : FileTree → Cid) (nodes : List (Cid × UnixFsNode))
    (data more : List Byte) (u : FileTree) (h : SeekRec lab nodes data u) :
    SeekRec lab nodes (data ++ more) u := by
  match u with
  | FileTree.leaf d =>
    simp only [SeekRec] at h ⊢
    obtain ⟨start, h1, h2, h3⟩ := h
    refine ⟨start, h1, by simp only [List.length_append]; omega, ?_⟩
    rw [List.drop_append_eq_append_drop, Nat.sub_eq_zero_of_le (by omega), List.drop_zero,
      List.take_append_of_le_length (by rw [List.length_drop]; omega), h3]
  | FileTree.node cs =>
    simp only [SeekRec] at h ⊢
    exact h

open SingleFileSeek in
/-- A seek record stays valid when the node map grows under a fresh key. -/
theorem seekRec_cons_ne (lab : FileTree → Cid) (k : Cid) (v : UnixFsNode)
    (nodes : List (Cid × UnixFsNode)) (data : List Byte) (u : FileTree)
    (hne : k ≠ lab u) (h : SeekRec lab nodes data u) :
    SeekRec lab ((k, v) :: nodes) data u := by
  match u with
  | FileTree.leaf d =>
    simp only [SeekRec] at h ⊢
    obtain ⟨start, h1, h2, h3⟩ := h
    refine ⟨start, ?_, h2, h3⟩
    rw [lookupNode_cons_ne _ _ _ _ hne]
    exact h1
  | FileTree.node cs =>
    simp only [SeekRec] at h ⊢
    rw [lookupNode_cons_ne _ _ _ _ hne]
    exact h

open SingleFileSeek in
/-- `copy_from_to_itself` with the destination at the end of the sink: the
read-back bytes are appended verbatim (also through the sparse-write branch,
whose skipped bytes are all zero). -/
theorem copy_at_end (data : List Byte) (q src size total K : Nat)
    (hK : ¬ K < total + size) (hread : src + size ≤ data.length) :
    copy_from_to_itself ⟨data, q⟩ src data.length size total K =
      .ok ((⟨data ++ (data.drop src).take size, data.length + size⟩ : OutFile),
        total + size) := by
  have hbuf : ((data.drop src).take size).length = size := by
    rw [List.length_take, List.length_drop]
    omega
  have hex : (OutFile.seekStart ⟨data, q⟩ src).readExact size =
      some ((data.drop src).take size, ⟨data, src + size⟩) := by
    unfold OutFile.readExact OutFile.seekStart
    rw [if_pos (by simpa using hread)]
  unfold copy_from_to_itself
  rw [if_neg hK]
  simp only [hex]
  have hws := writeStep_at_end data ((data.drop src).take size)
  by_cases hsp : 32 ≤ ((data.drop src).take size).length ∧
      ∀ b ∈ (data.drop src).take size, b = 0
  · rw [if_pos hsp]
    rw [if_pos hsp] at hws
    rw [show (OutFile.mk data (src + size)).seekStart data.length =
        (⟨data, data.length⟩ : OutFile) from rfl, hws, hbuf]
  · rw [if_neg hsp]
    rw [if_neg hsp] at hws
    rw [show (OutFile.mk data (src + size)).seekStart data.length =
        (⟨data, data.length⟩ : OutFile) from rfl, hws, hbuf]

theorem ordInv_nil_seen (lab : FileTree → Cid) (os : List FileTree) :
    OrdInv lab [] os := by
  intro i cs _ hseen
  cases hseen

/-- Dropping an already-emitted prefix of the occurrence list preserves the
ordering invariant. -/
theorem ordInv_drop_seen (lab : FileTree → Cid) (SL : List Cid)
    (os₁ os₂ : List FileTree) (hseen : ∀ u ∈ os₁, lab u ∈ SL)
    (h : OrdInv lab SL (os₁ ++ os₂)) : OrdInv lab SL os₂ := by
  intro i cs hi hcs v hv hvn
  obtain ⟨j, hj, hjv⟩ := h (os₁.length + i) cs
    (by rw [List.getElem?_append_right (by omega)]; simpa using hi) hcs v hv hvn
  by_cases hjlt : j < os₁.length
  · exfalso
    rw [List.getElem?_append_left hjlt] at hjv
    exact hvn (hseen v (memOfGetElem _ _ _ hjv))
  · refine ⟨j - os₁.length, by omega, ?_⟩
    rw [List.getElem?_append_right (by omega)] at hjv
    exact hjv

/-- Marking the head of the occurrence list as emitted preserves the
ordering invariant of the tail, provided every duplicate of the head in the
tail has its not-yet-emitted subtree members earlier in the tail. -/
theorem ordInv_emit (lab : FileTree → Cid) (SL : List Cid) (s : FileTree)
    (os : List FileTree)
    (hord : OrdInv lab SL (s :: os))
    (hdup : ∀ (i : Nat) (cs : List FileTree), os[i]? = some (FileTree.node cs) →
      lab (FileTree.node cs) = lab s →
      ∀ v ∈ occs (FileTree.node cs), lab v ∉ lab s :: SL →
        ∃ j, j < i ∧ os[j]? = some v) :
    OrdInv lab (lab s :: SL) os := by
  intro i cs hi hcs v hv hvn
  have hvn' : lab v ∉ SL := fun hc => hvn (List.mem_cons_of_mem _ hc)
  have hvns : lab v ≠ lab s := fun hc => hvn (hc ▸ List.mem_cons_self _ _)
  rcases List.mem_cons.mp hcs with heq | hseen
  · exact hdup i cs hi heq v hv hvn
  · obtain ⟨j, hj, hjv⟩ := hord (i + 1) cs (by simpa using hi) hseen v hv hvn'
    match j, hj, hjv with
    | 0, _, hjv =>
      exfalso
      rw [List.getElem?_cons_zero] at hjv
      exact hvns (congrArg lab (Option.some.inj hjv)).symm
    | j + 1, hj, hjv =>
      exact ⟨j, by omega, by simpa using hjv⟩

/-- Emitting the block of an unseen leaf at the head of the frontier
preserves the ordering invariant (a leaf has no duplicates that could carry
pending subtree members, by CID injectivity). -/
theorem ordInv_emit_leaf (lab : FileTree → Cid) (SL : List Cid) (d : List Byte)
    (F' : List FileTree)
    (hord : OrdInv lab SL (occsList (.leaf d :: F')))
    (hinj : ∀ u ∈ occsList (.leaf d :: F'), ∀ v ∈ occsList (.leaf d :: F'),
      lab u = lab v → u = v) :
    OrdInv lab (lab (.leaf d) :: SL) (occsList F') := by
  rw [occsList_cons_leaf] at hord hinj
  apply ordInv_emit lab SL (.leaf d) (occsList F') hord
  intro i cs hi heq v hv hvn
  exfalso
  have hmem : FileTree.node cs ∈ occsList F' := memOfGetElem _ _ _ hi
  have := hinj (FileTree.node cs) (List.mem_cons_of_mem _ hmem) (.leaf d)
    (List.mem_cons_self _ _) heq
  exact FileTree.noConfusion this

/-- Emitting the block of an unseen internal node at the head of the
frontier preserves the ordering invariant over the expanded frontier: by CID
injectivity a duplicate of the node is the same subtree, all its children
occurrences sit in the expansion before any such duplicate, and a tree never
occurs inside its own children. -/
theorem ordInv_emit_node (lab : FileTree → Cid) (SL : List Cid) (cs₀ : List FileTree)
    (F' : List FileTree)
    (hord : OrdInv lab SL (occsList (.node cs₀ :: F')))
    (hinj : ∀ u ∈ occsList (.node cs₀ :: F'), ∀ v ∈ occsList (.node cs₀ :: F'),
      lab u = lab v → u = v) :
    OrdInv lab (lab (.node cs₀) :: SL) (occsList (cs₀ ++ F')) := by
  rw [occsList_cons_node] at hord hinj
  apply ordInv_emit lab SL (.node cs₀) (occsList (cs₀ ++ F')) hord
  intro i cs hi heq v hv hvn
  have hmem : FileTree.node cs ∈ occsList (cs₀ ++ F') := memOfGetElem _ _ _ hi
  have heqv : FileTree.node cs = FileTree.node cs₀ :=
    hinj _ (List.mem_cons_of_mem _ hmem) _ (List.mem_cons_self _ _) heq
  have hcs : cs = cs₀ := by cases heqv; rfl
  subst hcs
  have hvne : v ≠ FileTree.node cs := by
    intro hv'
    subst hv'
    exact hvn (heq ▸ List.mem_cons_self _ _)
  have hvmem : v ∈ occsList cs := by
    have hv' : v ∈ occs (FileTree.node cs) := hv
    simp only [occs, List.mem_cons] at hv'
    rcases hv' with rfl | h
    · exact absurd rfl hvne
    · exact h
  obtain ⟨j₀, hj₀⟩ := List.mem_iff_getElem?.mp hvmem
  have hj₀lt : j₀ < (occsList cs).length := (List.getElem?_eq_some.mp hj₀).1
  have hsplit : occsList (cs ++ F') = occsList cs ++ occsList F' := occsList_append _ _
  have hige : (occsList cs).length ≤ i := by
    by_contra hcon
    push_neg at hcon
    rw [hsplit, List.getElem?_append_left hcon] at hi
    have hin : FileTree.node cs ∈ occsList cs := memOfGetElem _ _ _ hi
    have hle := (sizeT_occs_all (sizeTs cs)).2 cs le_rfl _ hin
    simp only [sizeT] at hle
    omega
  refine ⟨j₀, by omega, ?_⟩
  rw [hsplit, List.getElem?_append_left hj₀lt]
  exact hj₀

/-- When the head of the occurrence list is a node whose CID was already
emitted, the ordering invariant forces its whole subtree to be emitted. -/
theorem ordInv_head_node (lab : FileTree → Cid) (SL : List Cid) (cs : List FileTree)
    (os : List FileTree)
    (hord : OrdInv lab SL (FileTree.node cs :: os))
    (hseen : lab (FileTree.node cs) ∈ SL) :
    ∀ v ∈ occs (FileTree.node cs), lab v ∈ SL := by
  intro v hv
  by_contra hvn
  obtain ⟨j, hj, _⟩ := hord 0 cs List.getElem?_cons_zero hseen v hv hvn
  omega

/-- A frontier prefix whose occurrences were all emitted contributes nothing
to the deduplicated stream. -/
theorem dedupSer_skip_all (lab : FileTree → Cid) (SL : List Cid) :
    ∀ (n : Nat) (D : List FileTree), sizeTs D ≤ n →
      (∀ u ∈ occsList D, lab u ∈ SL) →
      ∀ G : List FileTree, dedupSer lab SL (D ++ G) = dedupSer lab SL G := by
  intro n
  induction n with
  | zero =>
    intro D hs hseen G
    match D with
    | [] => simp
    | x :: D' =>
      exfalso
      have := sizeT_pos x
      simp only [sizeTs] at hs
      omega
  | succ n ih =>
    intro D hs hseen G
    match D with
    | [] => simp
    | FileTree.leaf d :: D' =>
      rw [List.cons_append, dedupSer_leaf_seen _ _ _ _
        (hseen _ (by rw [occsList_cons_leaf]; exact List.mem_cons_self _ _))]
      exact ih D' (by simp only [sizeTs, sizeT] at hs; omega)
        (fun u hu => hseen u
          (by rw [occsList_cons_leaf]; exact List.mem_cons_of_mem _ hu)) G
    | FileTree.node cs :: D' =>
      rw [List.cons_append, dedupSer_node_seen _ _ _ _
        (hseen _ (by rw [occsList_cons_node]; exact List.mem_cons_self _ _))]
      exact ih D' (by simp only [sizeTs, sizeT] at hs; omega)
        (fun u hu => hseen u
          (by
            rw [occsList_cons_node, occsList_append]
            exact List.mem_cons_of_mem _ (List.mem_append_right _ hu))) G

open SingleFileSeek in
/-- Drain lemma on a deduplicated run: from a frontier whose already-emitted
occurrences carry valid records, the drain loop copies every emitted prefix
occurrence back (leaves through `copy_from_to_itself` at the end of the
sink, nodes by in-place expansion of their recorded links), stops at the
first not-yet-emitted occurrence, appends exactly the flattened bytes of the
consumed prefix, and leaves the deduplicated stream of the frontier
unchanged. -/
theorem drain_dedup (lab : FileTree → Cid) (K : Nat) :
    ∀ (n : Nat) (G : List FileTree), sizeTs G ≤ n →
    ∀ (SL consumed : List Cid) (nodes : List (Cid × UnixFsNode))
      (data : List Byte) (fuel : Nat),
      sizeTs G < fuel →
      (∀ u ∈ occsList G, lab u ∈ SL → SeekRec lab nodes data u) →
      (∀ c, c ∉ SL → lookupNode nodes c = none) →
      OrdInv lab SL (occsList G) →
      (∀ u ∈ occsList G, ∀ v ∈ occsList G, lab u = lab v → u = v) →
      (∀ cs, FileTree.node cs ∈ occsList G → lab (FileTree.node cs) ∉ consumed) →
      data.length + (flattenTs G).length ≤ K →
      ∃ (Q : List FileTree) (newc : List Cid) (bytes : List Byte),
        drainLoop K fuel
          ⟨nodes, ⟨consumed ++ G.map lab, consumed.length⟩,
            data.length, data.length, ⟨data, data.length⟩⟩ =
          .ok ⟨nodes, ⟨(consumed ++ newc) ++ Q.map lab, (consumed ++ newc).length⟩,
            (data ++ bytes).length, (data ++ bytes).length,
            ⟨data ++ bytes, (data ++ bytes).length⟩⟩ ∧
        flattenTs G = bytes ++ flattenTs Q ∧
        dedupSer lab SL G = dedupSer lab SL Q ∧
        (∀ q Q', Q = q :: Q' → lab q ∉ SL) ∧
        (∀ u ∈ occsList Q, u ∈ occsList G) ∧
        sizeTs Q ≤ sizeTs G ∧
        OrdInv lab SL (occsList Q) ∧
        (∀ c ∈ newc, ∃ d, c = lab (FileTree.leaf d) ∧ FileTree.leaf d ∈ occsList G) := by
  intro n
  induction n with
  | zero =>
    intro G hn SL consumed nodes data fuel hfuel hrec hnone hord hinj hcons hcap
    match G with
    | [] =>
      obtain ⟨f, rfl⟩ : ∃ f, fuel = f + 1 := ⟨fuel - 1, by omega⟩
      refine ⟨[], [], [], ?_, by simp [flattenTs], rfl, ?_, ?_, le_rfl, ?_, ?_⟩
      · rw [drain_break K f _ (by
          intro c hc
          rw [show (SortedLinks.mk (consumed ++ List.map lab []) consumed.length).first =
              (List.map lab [])[0]? from first_of_frontier consumed _] at hc
          simp at hc)]
        simp
      · intro q Q' h
        cases h
      · intro u hu
        exact hu
      · simpa [occsList] using hord
      · intro c hc
        cases hc
    | x :: G' =>
      exfalso
      have := sizeT_pos x
      simp only [sizeTs] at hn
      omega
  | succ n ih =>
    intro G hn SL consumed nodes data fuel hfuel hrec hnone hord hinj hcons hcap
    match G with
    | [] =>
      obtain ⟨f, rfl⟩ : ∃ f, fuel = f + 1 := ⟨fuel - 1, by omega⟩
      refine ⟨[], [], [], ?_, by simp [flattenTs], rfl, ?_, ?_, le_rfl, ?_, ?_⟩
      · rw [drain_break K f _ (by
          intro c hc
          rw [show (SortedLinks.mk (consumed ++ List.map lab []) consumed.length).first =
              (List.map lab [])[0]? from first_of_frontier consumed _] at hc
          simp at hc)]
        simp
      · intro q Q' h
        cases h
      · intro u hu
        exact hu
      · simpa [occsList] using hord
      · intro c hc
        cases hc
    | g :: G' =>
      by_cases hseen : lab g ∈ SL
      · obtain ⟨f, rfl⟩ : ∃ f, fuel = f + 1 := ⟨fuel - 1, by omega⟩
        match g with
        | FileTree.leaf d =>
          have hgmem : FileTree.leaf d ∈ occsList (FileTree.leaf d :: G') := by
            rw [occsList_cons_leaf]
            exact List.mem_cons_self _ _
          have hrec0 := hrec _ hgmem hseen
          simp only [SeekRec] at hrec0
          obtain ⟨start, hlk, hb, hst⟩ := hrec0
          have hKd : data.length + d.length + (flattenTs G').length ≤ K := by
            rw [flattenTs_cons_leaf, List.length_append] at hcap
            omega
          have hfirst : (SortedLinks.mk
              (consumed ++ (FileTree.leaf d :: G').map lab) consumed.length).first =
              some (lab (FileTree.leaf d)) := by
            rw [first_of_frontier]
            simp
          have hcopy := copy_at_end data data.length start d.length data.length K
            (by omega) hb
          rw [hst] at hcopy
          have hadv := advance_eq_ok (SortedLinks.mk
            (consumed ++ (FileTree.leaf d :: G').map lab) consumed.length)
            (by simp)
          have hih := ih G' (by simp only [sizeTs, sizeT] at hn; omega)
            SL (consumed ++ [lab (FileTree.leaf d)]) nodes (data ++ d) f
            (by simp only [sizeTs, sizeT] at hfuel; omega)
            (by
              intro u hu hu'
              apply seekRec_mono
              exact hrec u (by rw [occsList_cons_leaf]; exact List.mem_cons_of_mem _ hu) hu')
            hnone
            (by
              apply ordInv_drop_seen lab SL [FileTree.leaf d] (occsList G')
              · intro u hu
                rw [List.mem_singleton] at hu
                subst hu
                exact hseen
              · rw [occsList_cons_leaf] at hord
                exact hord)
            (fun u hu v hv h => hinj u
              (by rw [occsList_cons_leaf]; exact List.mem_cons_of_mem _ hu) v
              (by rw [occsList_cons_leaf]; exact List.mem_cons_of_mem _ hv) h)
            (by
              intro cs hcs hmem
              have hcsG : FileTree.node cs ∈ occsList (FileTree.leaf d :: G') := by
                rw [occsList_cons_leaf]
                exact List.mem_cons_of_mem _ hcs
              rcases List.mem_append.mp hmem with hmem | hmem
              · exact hcons cs hcsG hmem
              · rw [List.mem_singleton] at hmem
                exact FileTree.noConfusion (hinj _ hcsG _ hgmem hmem))
            (by
              rw [List.length_append]
              omega)
          obtain ⟨Q, newc, bytes, hrun, hflat, hser, hstall, hsub, hsz, hordQ, hnewc⟩ := hih
          have hsub' : ∀ u ∈ occsList Q, u ∈ occsList (FileTree.leaf d :: G') := by
            intro u hu
            rw [occsList_cons_leaf]
            exact List.mem_cons_of_mem _ (hsub u hu)
          refine ⟨Q, lab (FileTree.leaf d) :: newc, d ++ bytes, ?_, ?_, ?_, hstall,
            hsub', ?_, hordQ, ?_⟩
          · have hone : drainLoop K (f + 1)
                (⟨nodes, ⟨consumed ++ (FileTree.leaf d :: G').map lab, consumed.length⟩,
                  data.length, data.length, ⟨data, data.length⟩⟩ : SeekState) =
                drainLoop K f
                  ⟨nodes, ⟨(consumed ++ [lab (FileTree.leaf d)]) ++ G'.map lab,
                    (consumed ++ [lab (FileTree.leaf d)]).length⟩,
                  (data ++ d).length, (data ++ d).length,
                  ⟨data ++ d, (data ++ d).length⟩⟩ := by
              conv_lhs => unfold drainLoop
              simp only [hfirst, hlk]
              rw [if_neg (show ¬ K < data.length + d.length from by omega)]
              simp only [hcopy, hadv]
              simp
            rw [hone, hrun]
            simp
          · rw [flattenTs_cons_leaf, hflat, List.append_assoc]
          · rw [dedupSer_leaf_seen _ _ _ _ hseen, hser]
          · simp only [sizeTs, sizeT]
            omega
          · intro c hc
            rcases List.mem_cons.mp hc with rfl | hc
            · exact ⟨d, rfl, hgmem⟩
            · obtain ⟨d', h1, h2⟩ := hnewc c hc
              refine ⟨d', h1, ?_⟩
              rw [occsList_cons_leaf]
              exact List.mem_cons_of_mem _ h2
        | FileTree.node cs =>
          have hgmem : FileTree.node cs ∈ occsList (FileTree.node cs :: G') := by
            rw [occsList_cons_node]
            exact List.mem_cons_self _ _
          have hrec0 := hrec _ hgmem hseen
          simp only [SeekRec] at hrec0
          have hordn : OrdInv lab SL
              (FileTree.node cs :: occsList (cs ++ G')) := by
            rw [occsList_cons_node] at hord
            exact hord
          have hall := ordInv_head_node lab SL cs (occsList (cs ++ G')) hordn hseen
          have hfirst : (SortedLinks.mk
              (consumed ++ (FileTree.node cs :: G').map lab) consumed.length).first =
              some (lab (FileTree.node cs)) := by
            rw [first_of_frontier]
            simp
          have hih := ih (cs ++ G')
            (by
              simp only [sizeTs, sizeT] at hn
              rw [sizeTs_append]
              omega)
            SL consumed nodes data f
            (by
              simp only [sizeTs, sizeT] at hfuel
              rw [sizeTs_append]
              omega)
            (by
              intro u hu hu'
              exact hrec u (by rw [occsList_cons_node]; exact List.mem_cons_of_mem _ hu) hu')
            hnone
            (ordInv_drop_seen lab SL [FileTree.node cs] (occsList (cs ++ G'))
              (by
                intro u hu
                rw [List.mem_singleton] at hu
                subst hu
                exact hseen)
              hordn)
            (fun u hu v hv h => hinj u
              (by rw [occsList_cons_node]; exact List.mem_cons_of_mem _ hu) v
              (by rw [occsList_cons_node]; exact List.mem_cons_of_mem _ hv) h)
            (by
              intro cs' hcs' hmem
              exact hcons cs'
                (by rw [occsList_cons_node]; exact List.mem_cons_of_mem _ hcs') hmem)
            (by
              rw [show flattenTs (cs ++ G') = flattenTs (FileTree.node cs :: G') from
                (flattenTs_cons_node cs G').symm]
              exact hcap)
          obtain ⟨Q, newc, bytes, hrun, hflat, hser, hstall, hsub, hsz, hordQ, hnewc⟩ := hih
          have hsub' : ∀ u ∈ occsList Q, u ∈ occsList (FileTree.node cs :: G') := by
            intro u hu
            rw [occsList_cons_node]
            exact List.mem_cons_of_mem _ (hsub u hu)
          have hskip : dedupSer lab SL (cs ++ G') = dedupSer lab SL G' :=
            dedupSer_skip_all lab SL (sizeTs cs) cs le_rfl
              (by
                intro u hu
                exact hall u (by simp only [occs]; exact List.mem_cons_of_mem _ hu)) G'
          refine ⟨Q, newc, bytes, ?_, ?_, ?_, hstall, hsub', ?_, hordQ, ?_⟩
          · have hone : drainLoop K (f + 1)
                (⟨nodes, ⟨consumed ++ (FileTree.node cs :: G').map lab, consumed.length⟩,
                  data.length, data.length, ⟨data, data.length⟩⟩ : SeekState) =
                drainLoop K f
                  ⟨nodes, ⟨consumed ++ (cs ++ G').map lab, consumed.length⟩,
                    data.length, data.length, ⟨data, data.length⟩⟩ := by
              rw [drain_step_links K f _ (lab (FileTree.node cs)) (cs.map lab)
                hfirst hrec0]
              rw [insert_replace_split _ _ _ consumed (G'.map lab)
                (by simp) (hcons cs hgmem)]
              simp [List.append_assoc]
            rw [hone, hrun]
          · rw [show flattenTs (FileTree.node cs :: G') = flattenTs (cs ++ G') from
              flattenTs_cons_node cs G']
            exact hflat
          · rw [dedupSer_node_seen _ _ _ _ hseen, ← hskip, hser]
          · have h1 : sizeTs (cs ++ G') ≤ sizeTs (FileTree.node cs :: G') := by
              rw [sizeTs_append]
              simp only [sizeTs, sizeT]
              omega
            omega
          · intro c hc
            obtain ⟨d', h1, h2⟩ := hnewc c hc
            refine ⟨d', h1, ?_⟩
            rw [occsList_cons_node]
            exact List.mem_cons_of_mem _ h2
      · refine ⟨g :: G', [], [], ?_, by simp, rfl, ?_, fun u hu => hu, le_rfl, hord, ?_⟩
        · obtain ⟨f, rfl⟩ : ∃ f, fuel = f + 1 := ⟨fuel - 1, by omega⟩
          rw [drain_break K f _ (by
            intro c hc
            rw [show (SortedLinks.mk (consumed ++ (g :: G').map lab)
                consumed.length).first = ((g :: G').map lab)[0]? from
              first_of_frontier consumed _] at hc
            simp only [List.map_cons, List.getElem?_cons_zero, Option.some.injEq] at hc
            subst hc
            exact hnone _ hseen)]
          simp
        · intro q Q' h
          cases h
          exact hseen
        · intro c hc
          cases hc

open SingleFileSeek in
/-- Main run lemma for the seek engine on a deduplicated depth-first stream:
from a stalled state whose frontier is `F` and whose sink holds the bytes
emitted so far, the block loop consumes the whole deduplicated stream of
`F`, appends exactly the forest's flattened bytes to the sink (repeated
subtrees through the drain loop's back-reference copy path), and fully
consumes the frontier. -/
theorem runBlocks_dedup (lab : FileTree → Cid) (K root : Nat) :
    ∀ (n : Nat) (F : List FileTree), sizeTs F ≤ n →
    ∀ (SL consumed : List Cid) (nodes : List (Cid × UnixFsNode))
      (data : List Byte) (fuel : Nat),
      sizeTs F < fuel →
      (∀ u ∈ occsList F, Wf u) →
      (∀ q F', F = q :: F' → lab q ∉ SL) →
      (∀ u ∈ occsList F, lab u ∈ SL → SeekRec lab nodes data u) →
      (∀ c, c ∉ SL → lookupNode nodes c = none) →
      OrdInv lab SL (occsList F) →
      (∀ u ∈ occsList F, ∀ v ∈ occsList F, lab u = lab v → u = v) →
      (∀ cs, FileTree.node cs ∈ occsList F → lab (FileTree.node cs) ∉ consumed) →
      data.length + (flattenTs F).length ≤ K →
      ∃ (nodes' : List (Cid × UnixFsNode)) (consumed' : List Cid),
        runBlocks K fuel root
          ⟨nodes, ⟨consumed ++ F.map lab, consumed.length⟩,
            data.length, data.length, ⟨data, data.length⟩⟩
          (dedupSer lab SL F) =
        .ok ⟨nodes', ⟨consumed', consumed'.length⟩,
          (data ++ flattenTs F).length, (data ++ flattenTs F).length,
          ⟨data ++ flattenTs F, (data ++ flattenTs F).length⟩⟩ := by
  intro n
  induction n with
  | zero =>
    intro F hn SL consumed nodes data fuel hfuel hwfF hstallF hrec hnone hord hinj
      hcons hcap
    match F with
    | [] =>
      refine ⟨nodes, consumed, ?_⟩
      rw [dedupSer_nil]
      simp [runBlocks, flattenTs]
    | x :: F' =>
      exfalso
      have := sizeT_pos x
      simp only [sizeTs] at hn
      omega
  | succ n ih =>
    intro F hn SL consumed nodes data fuel hfuel hwfF hstallF hrec hnone hord hinj
      hcons hcap
    match F with
    | [] =>
      refine ⟨nodes, consumed, ?_⟩
      rw [dedupSer_nil]
      simp [runBlocks, flattenTs]
    | FileTree.leaf d :: F' =>
      obtain ⟨f, rfl⟩ : ∃ f, fuel = f + 1 := ⟨fuel - 1, by omega⟩
      have hnot : lab (FileTree.leaf d) ∉ SL := hstallF _ _ rfl
      have hgmem : FileTree.leaf d ∈ occsList (FileTree.leaf d :: F') := by
        rw [occsList_cons_leaf]
        exact List.mem_cons_self _ _
      have hfirst : (SortedLinks.mk (consumed ++ (lab (FileTree.leaf d) :: F'.map lab))
          consumed.length).first = some (lab (FileTree.leaf d)) := by
        rw [first_of_frontier]
        simp
      have hKd : data.length + d.length ≤ K := by
        rw [flattenTs_cons_leaf, List.length_append] at hcap
        omega
      have hpb : processBlock K (f + 1) root
          ⟨nodes, ⟨consumed ++ (lab (FileTree.leaf d) :: F'.map lab), consumed.length⟩,
           data.length, data.length, ⟨data, data.length⟩⟩
          (lab (FileTree.leaf d)) ⟨.File, some d, []⟩ =
          drainLoop K (f + 1)
            ⟨(lab (FileTree.leaf d), .DataPtr data.length d.length) :: nodes,
             ⟨(consumed ++ [lab (FileTree.leaf d)]) ++ F'.map lab,
              (consumed ++ [lab (FileTree.leaf d)]).length⟩,
             (data ++ d).length, (data ++ d).length,
             ⟨data ++ d, (data ++ d).length⟩⟩ := by
        have h := processBlock_leaf_step K (f + 1) root
          ⟨nodes, ⟨consumed ++ (lab (FileTree.leaf d) :: F'.map lab), consumed.length⟩,
           data.length, data.length, ⟨data, data.length⟩⟩
          (lab (FileTree.leaf d)) d ⟨.File, some d, []⟩ rfl rfl hfirst rfl hKd
        rw [h, writeStep_at_end]
        simp
      have hrecleaf : SeekRec lab
          ((lab (FileTree.leaf d), UnixFsNode.DataPtr data.length d.length) :: nodes)
          (data ++ d) (FileTree.leaf d) := by
        simp only [SeekRec]
        refine ⟨data.length, lookupNode_cons_self _ _ _, by simp, ?_⟩
        rw [List.drop_append_eq_append_drop, List.drop_of_length_le le_rfl,
          Nat.sub_self, List.drop_zero, List.nil_append, List.take_of_length_le le_rfl]
      have hdd := drain_dedup lab K (sizeTs F') F' le_rfl
        (lab (FileTree.leaf d) :: SL) (consumed ++ [lab (FileTree.leaf d)])
        ((lab (FileTree.leaf d), UnixFsNode.DataPtr data.length d.length) :: nodes)
        (data ++ d) (f + 1)
        (by simp only [sizeTs, sizeT] at hfuel; omega)
        (by
          intro u hu hu'
          have huF : u ∈ occsList (FileTree.leaf d :: F') := by
            rw [occsList_cons_leaf]
            exact List.mem_cons_of_mem _ hu
          rcases List.mem_cons.mp hu' with heq | hin
          · have : u = FileTree.leaf d := hinj u huF _ hgmem heq
            subst this
            exact hrecleaf
          · have hne : lab (FileTree.leaf d) ≠ lab u := by
              intro h
              exact hnot (h ▸ hin)
            exact seekRec_cons_ne _ _ _ _ _ _ hne (seekRec_mono _ _ _ _ _ (hrec u huF hin)))
        (by
          intro c hc
          have hc1 : c ≠ lab (FileTree.leaf d) := by
            intro h
            exact hc (h ▸ List.mem_cons_self _ _)
          have hc2 : c ∉ SL := fun h => hc (List.mem_cons_of_mem _ h)
          rw [lookupNode_cons_ne _ _ _ _ (fun h => hc1 h.symm)]
          exact hnone c hc2)
        (ordInv_emit_leaf lab SL d F' hord hinj)
        (by
          intro u hu v hv h
          exact hinj u (by rw [occsList_cons_leaf]; exact List.mem_cons_of_mem _ hu) v
            (by rw [occsList_cons_leaf]; exact List.mem_cons_of_mem _ hv) h)
        (by
          intro cs hcs hmem
          have hcsF : FileTree.node cs ∈ occsList (FileTree.leaf d :: F') := by
            rw [occsList_cons_leaf]
            exact List.mem_cons_of_mem _ hcs
          rcases List.mem_append.mp hmem with hmem | hmem
          · exact hcons cs hcsF hmem
          · rw [List.mem_singleton] at hmem
            exact FileTree.noConfusion (hinj _ hcsF _ hgmem hmem))
        (by
          rw [flattenTs_cons_leaf, List.length_append] at hcap
          rw [List.length_append]
          omega)
      obtain ⟨Q, newc, bytes, hdrain, hflatQ, hserQ, hstallQ, hsubQ, hszQ, hordQ,
        hnewcQ⟩ := hdd
      have hrb : runBlocks K (f + 1) root
          ⟨nodes, ⟨consumed ++ (lab (FileTree.leaf d) :: F'.map lab), consumed.length⟩,
           data.length, data.length, ⟨data, data.length⟩⟩
          ((lab (FileTree.leaf d), (⟨.File, some d, []⟩ : FlatUnixFs)) ::
            dedupSer lab (lab (FileTree.leaf d) :: SL) F') =
          runBlocks K (f + 1) root
            ⟨(lab (FileTree.leaf d), UnixFsNode.DataPtr data.length d.length) :: nodes,
             ⟨((consumed ++ [lab (FileTree.leaf d)]) ++ newc) ++ Q.map lab,
              ((consumed ++ [lab (FileTree.leaf d)]) ++ newc).length⟩,
             ((data ++ d) ++ bytes).length, ((data ++ d) ++ bytes).length,
             ⟨(data ++ d) ++ bytes, ((data ++ d) ++ bytes).length⟩⟩
            (dedupSer lab (lab (FileTree.leaf d) :: SL) F') := by
        conv_lhs => unfold runBlocks
        simp only [hpb, hdrain]
      have hsubF : ∀ u ∈ occsList Q, u ∈ occsList (FileTree.leaf d :: F') := by
        intro u hu
        rw [occsList_cons_leaf]
        exact List.mem_cons_of_mem _ (hsubQ u hu)
      have hih := ih Q
        (by
          simp only [sizeTs, sizeT] at hn
          omega)
        (lab (FileTree.leaf d) :: SL) ((consumed ++ [lab (FileTree.leaf d)]) ++ newc)
        ((lab (FileTree.leaf d), UnixFsNode.DataPtr data.length d.length) :: nodes)
        ((data ++ d) ++ bytes) (f + 1)
        (by simp only [sizeTs, sizeT] at hfuel; omega)
        (fun u hu => hwfF u (hsubF u hu))
        hstallQ
        (by
          intro u hu hu'
          have huF' : u ∈ occsList F' := hsubQ u hu
          have huF : u ∈ occsList (FileTree.leaf d :: F') := hsubF u hu
          rcases List.mem_cons.mp hu' with heq | hin
          · have : u = FileTree.leaf d := hinj u huF _ hgmem heq
            subst this
            exact seekRec_mono _ _ _ _ _ hrecleaf
          · have hne : lab (FileTree.leaf d) ≠ lab u := by
              intro h
              exact hnot (h ▸ hin)
            exact seekRec_cons_ne _ _ _ _ _ _ hne
              (seekRec_mono _ _ _ _ _ (seekRec_mono _ _ _ _ _ (hrec u huF hin))))
        (by
          intro c hc
          have hc1 : c ≠ lab (FileTree.leaf d) := by
            intro h
            exact hc (h ▸ List.mem_cons_self _ _)
          have hc2 : c ∉ SL := fun h => hc (List.mem_cons_of_mem _ h)
          rw [lookupNode_cons_ne _ _ _ _ (fun h => hc1 h.symm)]
          exact hnone c hc2)
        hordQ
        (by
          intro u hu v hv h
          exact hinj u (hsubF u hu) v (hsubF v hv) h)
        (by
          intro cs hcs hmem
          have hcsF : FileTree.node cs ∈ occsList (FileTree.leaf d :: F') := hsubF _ hcs
          rcases List.mem_append.mp hmem with hmem | hmem
          · rcases List.mem_append.mp hmem with hmem | hmem
            · exact hcons cs hcsF hmem
            · rw [List.mem_singleton] at hmem
              exact FileTree.noConfusion (hinj _ hcsF _ hgmem hmem)
          · obtain ⟨d', h1, h2⟩ := hnewcQ _ hmem
            have h2F : FileTree.leaf d' ∈ occsList (FileTree.leaf d :: F') := by
              rw [occsList_cons_leaf]
              exact List.mem_cons_of_mem _ h2
            exact FileTree.noConfusion (hinj _ hcsF _ h2F h1))
        (by
          rw [flattenTs_cons_leaf] at hcap
          rw [hflatQ] at hcap
          simp only [List.length_append] at hcap ⊢
          omega)
      obtain ⟨nodes', consumed', hrunQ⟩ := hih
      refine ⟨nodes', consumed', ?_⟩
      rw [dedupSer_leaf_not_seen _ _ _ _ hnot,
        show (FileTree.leaf d :: F').map lab = lab (FileTree.leaf d) :: F'.map lab from
          by simp,
        hrb, hserQ, hrunQ,
        show data ++ flattenTs (FileTree.leaf d :: F') =
          ((data ++ d) ++ bytes) ++ flattenTs Q from by
            rw [flattenTs_cons_leaf, hflatQ]
            simp [List.append_assoc]]
    | FileTree.node cs :: F' =>
      obtain ⟨f, rfl⟩ : ∃ f, fuel = f + 1 := ⟨fuel - 1, by omega⟩
      have hnot : lab (FileTree.node cs) ∉ SL := hstallF _ _ rfl
      have hgmem : FileTree.node cs ∈ occsList (FileTree.node cs :: F') := by
        rw [occsList_cons_node]
        exact List.mem_cons_self _ _
      have hne : cs ≠ [] := by
        have hwfnode := hwfF (FileTree.node cs) hgmem
        cases hwfnode with
        | node _ hne h => exact hne
      have hfirst : (SortedLinks.mk (consumed ++ (lab (FileTree.node cs) :: F'.map lab))
          consumed.length).first = some (lab (FileTree.node cs)) := by
        rw [first_of_frontier]
        simp
      have hpb : processBlock K (f + 1) root
          ⟨nodes, ⟨consumed ++ (lab (FileTree.node cs) :: F'.map lab), consumed.length⟩,
           data.length, data.length, ⟨data, data.length⟩⟩
          (lab (FileTree.node cs))
          ⟨.File, none, cs.map (fun c => ⟨some (lab c)⟩)⟩ =
          drainLoop K (f + 1)
            ⟨(lab (FileTree.node cs), .Links (cs.map lab)) :: nodes,
             ⟨consumed ++ (lab (FileTree.node cs) :: F'.map lab), consumed.length⟩,
             data.length, data.length, ⟨data, data.length⟩⟩ := by
        rw [processBlock_links_step K (f + 1) root _ _ _ (cs.map lab)
          (by simp [List.isEmpty_eq_false, hne]) rfl (links_to_cids_map lab cs)]
      have hone : drainLoop K (f + 1)
          (⟨(lab (FileTree.node cs), .Links (cs.map lab)) :: nodes,
            ⟨consumed ++ (lab (FileTree.node cs) :: F'.map lab), consumed.length⟩,
            data.length, data.length, ⟨data, data.length⟩⟩ : SeekState) =
          drainLoop K f
            ⟨(lab (FileTree.node cs), .Links (cs.map lab)) :: nodes,
             ⟨consumed ++ (cs ++ F').map lab, consumed.length⟩,
             data.length, data.length, ⟨data, data.length⟩⟩ := by
        rw [drain_step_links K f _ (lab (FileTree.node cs)) (cs.map lab)
          (by simpa using hfirst) (lookupNode_cons_self _ _ _)]
        rw [insert_replace_split _ _ _ consumed (F'.map lab) (by simp)
          (hcons cs hgmem)]
        simp [List.append_assoc]
      have hrecnode : SeekRec lab
          ((lab (FileTree.node cs), UnixFsNode.Links (cs.map lab)) :: nodes)
          data (FileTree.node cs) := by
        simp only [SeekRec]
        exact lookupNode_cons_self _ _ _
      have hdd := drain_dedup lab K (sizeTs (cs ++ F')) (cs ++ F') le_rfl
        (lab (FileTree.node cs) :: SL) consumed
        ((lab (FileTree.node cs), UnixFsNode.Links (cs.map lab)) :: nodes)
        data f
        (by
          simp only [sizeTs, sizeT] at hfuel
          rw [sizeTs_append]
          omega)
        (by
          intro u hu hu'
          have huF : u ∈ occsList (FileTree.node cs :: F') := by
            rw [occsList_cons_node]
            exact List.mem_cons_of_mem _ hu
          rcases List.mem_cons.mp hu' with heq | hin
          · have : u = FileTree.node cs := hinj u huF _ hgmem heq
            subst this
            exact hrecnode
          · have hne' : lab (FileTree.node cs) ≠ lab u := by
              intro h
              exact hnot (h ▸ hin)
            exact seekRec_cons_ne _ _ _ _ _ _ hne' (hrec u huF hin))
        (by
          intro c hc
          have hc1 : c ≠ lab (FileTree.node cs) := by
            intro h
            exact hc (h ▸ List.mem_cons_self _ _)
          have hc2 : c ∉ SL := fun h => hc (List.mem_cons_of_mem _ h)
          rw [lookupNode_cons_ne _ _ _ _ (fun h => hc1 h.symm)]
          exact hnone c hc2)
        (ordInv_emit_node lab SL cs F' hord hinj)
        (by
          intro u hu v hv h
          exact hinj u (by rw [occsList_cons_node]; exact List.mem_cons_of_mem _ hu) v
            (by rw [occsList_cons_node]; exact List.mem_cons_of_mem _ hv) h)
        (by
          intro cs' hcs' hmem
          exact hcons cs'
            (by rw [occsList_cons_node]; exact List.mem_cons_of_mem _ hcs') hmem)
        (by
          rw [show flattenTs (cs ++ F') = flattenTs (FileTree.node cs :: F') from
            (flattenTs_cons_node cs F').symm]
          exact hcap)
      obtain ⟨Q, newc, bytes, hdrain, hflatQ, hserQ, hstallQ, hsubQ, hszQ, hordQ,
        hnewcQ⟩ := hdd
      have hdall : drainLoop K (f + 1)
          (⟨(lab (FileTree.node cs), .Links (cs.map lab)) :: nodes,
            ⟨consumed ++ (lab (FileTree.node cs) :: F'.map lab), consumed.length⟩,
            data.length, data.length, ⟨data, data.length⟩⟩ : SeekState) =
          .ok ⟨(lab (FileTree.node cs), UnixFsNode.Links (cs.map lab)) :: nodes,
            ⟨(consumed ++ newc) ++ Q.map lab, (consumed ++ newc).length⟩,
            (data ++ bytes).length, (data ++ bytes).length,
            ⟨data ++ bytes, (data ++ bytes).length⟩⟩ := by
        rw [hone]
        exact hdrain
      have hrb : runBlocks K (f + 1) root
          ⟨nodes, ⟨consumed ++ (lab (FileTree.node cs) :: F'.map lab), consumed.length⟩,
           data.length, data.length, ⟨data, data.length⟩⟩
          ((lab (FileTree.node cs),
            (⟨.File, none, cs.map (fun c => ⟨some (lab c)⟩)⟩ : FlatUnixFs)) ::
            dedupSer lab (lab (FileTree.node cs) :: SL) (cs ++ F')) =
          runBlocks K (f + 1) root
            ⟨(lab (FileTree.node cs), UnixFsNode.Links (cs.map lab)) :: nodes,
             ⟨(consumed ++ newc) ++ Q.map lab, (consumed ++ newc).length⟩,
             (data ++ bytes).length, (data ++ bytes).length,
             ⟨data ++ bytes, (data ++ bytes).length⟩⟩
            (dedupSer lab (lab (FileTree.node cs) :: SL) (cs ++ F')) := by
        conv_lhs => unfold runBlocks
        simp only [hpb, hdall]
      have hsubF : ∀ u ∈ occsList Q, u ∈ occsList (FileTree.node cs :: F') := by
        intro u hu
        rw [occsList_cons_node]
        exact List.mem_cons_of_mem _ (hsubQ u hu)
      have hih := ih Q
        (by
          have h1 : sizeTs (cs ++ F') ≤ n := by
            simp only [sizeTs, sizeT] at hn
            rw [sizeTs_append]
            omega
          omega)
        (lab (FileTree.node cs) :: SL) (consumed ++ newc)
        ((lab (FileTree.node cs), UnixFsNode.Links (cs.map lab)) :: nodes)
        (data ++ bytes) (f + 1)
        (by
          have h1 : sizeTs (cs ++ F') < f + 1 := by
            simp only [sizeTs, sizeT] at hfuel
            rw [sizeTs_append]
            omega
          omega)
        (fun u hu => hwfF u (hsubF u hu))
        hstallQ
        (by
          intro u hu hu'
          have huF : u ∈ occsList (FileTree.node cs :: F') := hsubF u hu
          rcases List.mem_cons.mp hu' with heq | hin
          · have : u = FileTree.node cs := hinj u huF _ hgmem heq
            subst this
            exact seekRec_mono _ _ _ _ _ hrecnode
          · have hne' : lab (FileTree.node cs) ≠ lab u := by
              intro h
              exact hnot (h ▸ hin)
            exact seekRec_cons_ne _ _ _ _ _ _ hne'
              (seekRec_mono _ _ _ _ _ (hrec u huF hin)))
        (by
          intro c hc
          have hc1 : c ≠ lab (FileTree.node cs) := by
            intro h
            exact hc (h ▸ List.mem_cons_self _ _)
          have hc2 : c ∉ SL := fun h => hc (List.mem_cons_of_mem _ h)
          rw [lookupNode_cons_ne _ _ _ _ (fun h => hc1 h.symm)]
          exact hnone c hc2)
        hordQ
        (by
          intro u hu v hv h
          exact hinj u (hsubF u hu) v (hsubF v hv) h)
        (by
          intro cs' hcs' hmem
          have hcsF : FileTree.node cs' ∈ occsList (FileTree.node cs :: F') :=
            hsubF _ hcs'
          rcases List.mem_append.mp hmem with hmem | hmem
          · exact hcons cs' hcsF hmem
          · obtain ⟨d', h1, h2⟩ := hnewcQ _ hmem
            have h2F : FileTree.leaf d' ∈ occsList (FileTree.node cs :: F') := by
              rw [occsList_cons_node]
              exact List.mem_cons_of_mem _ h2
            exact FileTree.noConfusion (hinj _ hcsF _ h2F h1))
        (by
          rw [show flattenTs (FileTree.node cs :: F') = flattenTs (cs ++ F') from
            flattenTs_cons_node cs F', hflatQ] at hcap
          simp only [List.length_append] at hcap ⊢
          omega)
      obtain ⟨nodes', consumed', hrunQ⟩ := hih
      refine ⟨nodes', consumed', ?_⟩
      rw [dedupSer_node_not_seen _ _ _ _ hnot,
        show (FileTree.node cs :: F').map lab = lab (FileTree.node cs) :: F'.map lab from
          by simp,
        hrb, hserQ, hrunQ,
        show data ++ flattenTs (FileTree.node cs :: F') =
          (data ++ bytes) ++ flattenTs Q from by
            rw [show flattenTs (FileTree.node cs :: F') = flattenTs (cs ++ F') from
              flattenTs_cons_node cs F', hflatQ]
            simp [List.append_assoc]]

open SingleFile in
/-- The collection phase of the buffered engine on a deduplicated stream
accumulates exactly one record per distinct emitted CID: keys are distinct,
every record is the record of a serialized occurrence, every not-yet-emitted
occurrence's record is present, and the buffered-bytes counter is untouched
when no cap is set. -/
theorem collect_dedup (lab : FileTree → Cid) (root : Nat) :
    ∀ (n : Nat) (F : List FileTree), sizeTs F ≤ n →
    ∀ (SL : List Cid) (ns : List (Cid × SingleFile.UnixFsNode)) (bl : Nat),
      (∀ u ∈ occsList F, Wf u) →
      OrdInv lab SL (occsList F) →
      (∀ u ∈ occsList F, ∀ v ∈ occsList F, lab u = lab v → u = v) →
      ∃ recs : List (Cid × SingleFile.UnixFsNode),
        collectBlocks root none ⟨ns, bl⟩ (dedupSer lab SL F) = .ok ⟨recs ++ ns, bl⟩ ∧
        (∀ u ∈ occsList F, lab u ∉ SL → (lab u, nodeRecord lab u) ∈ recs) ∧
        (recs.map Prod.fst).Nodup ∧
        (∀ c ∈ recs.map Prod.fst, c ∉ SL) := by
  intro n
  induction n with
  | zero =>
    intro F hn SL ns bl hwfF hord hinj
    match F with
    | [] =>
      refine ⟨[], ?_, ?_, List.nodup_nil, ?_⟩
      · rw [dedupSer_nil]
        simp [collectBlocks]
      · intro u hu
        simp [occsList] at hu
      · intro c hc
        cases hc
    | x :: F' =>
      exfalso
      have := sizeT_pos x
      simp only [sizeTs] at hn
      omega
  | succ n ih =>
    intro F hn SL ns bl hwfF hord hinj
    match F with
    | [] =>
      refine ⟨[], ?_, ?_, List.nodup_nil, ?_⟩
      · rw [dedupSer_nil]
        simp [collectBlocks]
      · intro u hu
        simp [occsList] at hu
      · intro c hc
        cases hc
    | FileTree.leaf d :: F' =>
      have hgmem : FileTree.leaf d ∈ occsList (FileTree.leaf d :: F') := by
        rw [occsList_cons_leaf]
        exact List.mem_cons_self _ _
      by_cases hseen : lab (FileTree.leaf d) ∈ SL
      · obtain ⟨recs, hcol, hcov, hnd, hkeys⟩ := ih F'
          (by simp only [sizeTs, sizeT] at hn; omega) SL ns bl
          (fun u hu => hwfF u (by rw [occsList_cons_leaf]; exact List.mem_cons_of_mem _ hu))
          (ordInv_drop_seen lab SL [FileTree.leaf d] (occsList F')
            (by
              intro u hu
              rw [List.mem_singleton] at hu
              subst hu
              exact hseen)
            (by rw [occsList_cons_leaf] at hord; exact hord))
          (fun u hu v hv h => hinj u
            (by rw [occsList_cons_leaf]; exact List.mem_cons_of_mem _ hu) v
            (by rw [occsList_cons_leaf]; exact List.mem_cons_of_mem _ hv) h)
        refine ⟨recs, ?_, ?_, hnd, hkeys⟩
        · rw [dedupSer_leaf_seen _ _ _ _ hseen]
          exact hcol
        · intro u hu hnot
          rw [occsList_cons_leaf] at hu
          rcases List.mem_cons.mp hu with rfl | hu
          · exact absurd hseen hnot
          · exact hcov u hu hnot
      · obtain ⟨recs, hcol, hcov, hnd, hkeys⟩ := ih F'
          (by simp only [sizeTs, sizeT] at hn; omega)
          (lab (FileTree.leaf d) :: SL) ((lab (FileTree.leaf d), .Data d) :: ns) bl
          (fun u hu => hwfF u (by rw [occsList_cons_leaf]; exact List.mem_cons_of_mem _ hu))
          (ordInv_emit_leaf lab SL d F' hord hinj)
          (fun u hu v hv h => hinj u
            (by rw [occsList_cons_leaf]; exact List.mem_cons_of_mem _ hu) v
            (by rw [occsList_cons_leaf]; exact List.mem_cons_of_mem _ hv) h)
        refine ⟨recs ++ [(lab (FileTree.leaf d), .Data d)], ?_, ?_, ?_, ?_⟩
        · rw [dedupSer_leaf_not_seen _ _ _ _ hseen]
          have hstep : collectBlocks root none ⟨ns, bl⟩
              ((lab (FileTree.leaf d), (⟨.File, some d, []⟩ : FlatUnixFs)) ::
                dedupSer lab (lab (FileTree.leaf d) :: SL) F') =
              collectBlocks root none ⟨(lab (FileTree.leaf d), .Data d) :: ns, bl⟩
                (dedupSer lab (lab (FileTree.leaf d) :: SL) F') := by
            conv_lhs => unfold collectBlocks
            rw [if_neg (by simp)]
            simp
          rw [hstep, hcol]
          simp
        · intro u hu hnot
          rw [occsList_cons_leaf] at hu
          rcases List.mem_cons.mp hu with rfl | hu
          · apply List.mem_append_right
            simp [nodeRecord]
          · by_cases heq : lab u = lab (FileTree.leaf d)
            · have : u = FileTree.leaf d := hinj u
                (by rw [occsList_cons_leaf]; exact List.mem_cons_of_mem _ hu) _ hgmem heq
              subst this
              apply List.mem_append_right
              simp [nodeRecord]
            · have : lab u ∉ lab (FileTree.leaf d) :: SL := by
                intro h
                rcases List.mem_cons.mp h with h | h
                · exact heq h
                · exact hnot h
              exact List.mem_append_left _ (hcov u hu this)
        · rw [List.map_append]
          rw [List.nodup_append]
          refine ⟨hnd, by simp, ?_⟩
          intro a ha hb
          simp only [List.map_cons, List.map_nil, List.mem_singleton] at hb
          subst hb
          exact (hkeys _ ha) (List.mem_cons_self _ _)
        · intro c hc
          rw [List.map_append] at hc
          rcases List.mem_append.mp hc with hc | hc
          · exact fun h => (hkeys c hc) (List.mem_cons_of_mem _ h)
          · simp only [List.map_cons, List.map_nil, List.mem_singleton] at hc
            subst hc
            exact hseen
    | FileTree.node cs :: F' =>
      have hgmem : FileTree.node cs ∈ occsList (FileTree.node cs :: F') := by
        rw [occsList_cons_node]
        exact List.mem_cons_self _ _
      have hoccn : occsList (FileTree.node cs :: F') =
          (FileTree.node cs :: occsList cs) ++ occsList F' := by
        rw [occsList_cons_node, occsList_append]
        simp
      by_cases hseen : lab (FileTree.node cs) ∈ SL
      · have hall : ∀ v ∈ occs (FileTree.node cs), lab v ∈ SL := by
          apply ordInv_head_node lab SL cs (occsList (cs ++ F'))
          · rw [occsList_cons_node] at hord
            exact hord
          · exact hseen
        obtain ⟨recs, hcol, hcov, hnd, hkeys⟩ := ih F'
          (by
            simp only [sizeTs, sizeT] at hn
            have := sizeTs_append cs F'
            have h0 : 0 ≤ sizeTs cs := Nat.zero_le _
            omega)
          SL ns bl
          (fun u hu => hwfF u (by
            rw [hoccn]
            exact List.mem_append_right _ hu))
          (ordInv_drop_seen lab SL (FileTree.node cs :: occsList cs) (occsList F')
            (by
              intro u hu
              rcases List.mem_cons.mp hu with rfl | hu
              · exact hseen
              · exact hall u (by simp only [occs]; exact List.mem_cons_of_mem _ hu))
            (by rw [hoccn] at hord; exact hord))
          (fun u hu v hv h => hinj u
            (by rw [hoccn]; exact List.mem_append_right _ hu) v
            (by rw [hoccn]; exact List.mem_append_right _ hv) h)
        refine ⟨recs, ?_, ?_, hnd, hkeys⟩
        · rw [dedupSer_node_seen _ _ _ _ hseen]
          exact hcol
        · intro u hu hnot
          rw [hoccn] at hu
          rcases List.mem_append.mp hu with hu | hu
          · rcases List.mem_cons.mp hu with rfl | hu
            · exact absurd hseen hnot
            · exact absurd (hall u (by simp only [occs]; exact List.mem_cons_of_mem _ hu))
                hnot
          · exact hcov u hu hnot
      · have hne : cs ≠ [] := by
          have hwfnode := hwfF (FileTree.node cs) hgmem
          cases hwfnode with
          | node _ hne h => exact hne
        obtain ⟨recs, hcol, hcov, hnd, hkeys⟩ := ih (cs ++ F')
          (by
            simp only [sizeTs, sizeT] at hn
            rw [sizeTs_append]
            omega)
          (lab (FileTree.node cs) :: SL)
          ((lab (FileTree.node cs), .Links (cs.map lab)) :: ns) bl
          (fun u hu => hwfF u (by rw [occsList_cons_node]; exact List.mem_cons_of_mem _ hu))
          (ordInv_emit_node lab SL cs F' hord hinj)
          (fun u hu v hv h => hinj u
            (by rw [occsList_cons_node]; exact List.mem_cons_of_mem _ hu) v
            (by rw [occsList_cons_node]; exact List.mem_cons_of_mem _ hv) h)
        refine ⟨recs ++ [(lab (FileTree.node cs), .Links (cs.map lab))], ?_, ?_, ?_, ?_⟩
        · rw [dedupSer_node_not_seen _ _ _ _ hseen]
          have hlen : ¬((cs.map (fun c => (⟨some (lab c)⟩ : PBLink))).length = 0) := by
            simp [hne]
          have hstep : collectBlocks root none ⟨ns, bl⟩
              ((lab (FileTree.node cs), (⟨.File, none,
                cs.map (fun c => ⟨some (lab c)⟩)⟩ : FlatUnixFs)) ::
                dedupSer lab (lab (FileTree.node cs) :: SL) (cs ++ F')) =
              collectBlocks root none
                ⟨(lab (FileTree.node cs), .Links (cs.map lab)) :: ns, bl⟩
                (dedupSer lab (lab (FileTree.node cs) :: SL) (cs ++ F')) := by
            conv_lhs => unfold collectBlocks
            rw [if_neg (by simp), if_neg hlen]
            simp only [linksToCidsBuffered_map]
          rw [hstep, hcol]
          simp
        · intro u hu hnot
          rw [occsList_cons_node] at hu
          rcases List.mem_cons.mp hu with rfl | hu
          · apply List.mem_append_right
            simp [nodeRecord]
          · by_cases heq : lab u = lab (FileTree.node cs)
            · have : u = FileTree.node cs := hinj u
                (by rw [occsList_cons_node]; exact List.mem_cons_of_mem _ hu) _ hgmem heq
              subst this
              apply List.mem_append_right
              simp [nodeRecord]
            · have : lab u ∉ lab (FileTree.node cs) :: SL := by
                intro h
                rcases List.mem_cons.mp h with h | h
                · exact heq h
                · exact hnot h
              exact List.mem_append_left _ (hcov u hu this)
        · rw [List.map_append]
          rw [List.nodup_append]
          refine ⟨hnd, by simp, ?_⟩
          intro a ha hb
          simp only [List.map_cons, List.map_nil, List.mem_singleton] at hb
          subst hb
          exact (hkeys _ ha) (List.mem_cons_self _ _)
        · intro c hc
          rw [List.map_append] at hc
          rcases List.mem_append.mp hc with hc | hc
          · exact fun h => (hkeys c hc) (List.mem_cons_of_mem _ h)
          · simp only [List.map_cons, List.map_nil, List.mem_singleton] at hc
            subst hc
            exact hseen

open SingleFile in
/-- The buffered engine on the deduplicated depth-first stream of a
well-formed tree with content-determined CIDs returns exactly the flattened
file: the collection map holds one record per distinct CID and `flatten_tree`
resolves every (possibly repeated) reference through it. -/
theorem buffered_dedup (lab : FileTree → Cid) (t : FileTree) (fuel : Nat)
    (header : CarHeader) (hwf : Wf t)
    (hinj : ∀ u ∈ occs t, ∀ v ∈ occs t, lab u = lab v → u = v)
    (hdepth : depthT t < fuel) :
    read_single_file_buffered fuel header (dedupSer lab [] [t]) []
      (some (lab t)) none = .ok (flattenT t) := by
  have hocc1 : occsList [t] = occs t := by
    simp [occsList]
  obtain ⟨recs, hcol, hcov, hnd, _⟩ := collect_dedup lab (lab t) (sizeTs [t]) [t]
    le_rfl [] [] 0
    (by
      rw [hocc1]
      exact (wf_occs_all (sizeT t)).1 t le_rfl hwf)
    (ordInv_nil_seen lab _)
    (by
      rw [hocc1]
      exact hinj)
  simp only [List.append_nil] at hcol
  have hlook : ∀ u ∈ occs t, lookupNode recs (lab u) = some (nodeRecord lab u) := by
    intro u hu
    apply lookup_of_nodup _ _ _ hnd
    apply hcov
    · rw [hocc1]
      exact hu
    · intro h
      cases h
  have hflat := (flatten_tree_serialized lab recs (sizeT t)).1 t le_rfl hwf fuel
    hdepth hlook
  have hjoin := (leafDatas_join (sizeT t)).1 t le_rfl
  unfold read_single_file_buffered
  simp only [hcol]
  rw [hflat]
  simp [hjoin]

open SingleFileSeek in
/-- C1: for every CAR stream obtained by serializing a well-formed UnixFS
File DAG in depth-first preorder with block deduplication — repeated
subtrees share their content-determined CID (the labeling is injective on
distinct subtree values) and each distinct block is emitted exactly once, at
its first occurrence — with depth-first leaf-byte concatenation F, both
`read_single_file_buffered` and `read_single_file_seek` called with
`expected_root = R` and no cap return `Ok` and write exactly F to the sink;
the seek engine reconstructs every repeated chunk through the drain loop's
back-reference copy path (`copy_from_to_itself`). The file length must fit
in `usize` (the seek engine compares the running total against `usize::MAX`
when no cap is given); `fuel` bounds the drain loop and the recursion of
`flatten_tree`, which are unbounded loops in the source. -/
theorem claim_c1 (lab : FileTree → Cid) (t : FileTree) (fuel : Nat) (header : CarHeader)
    (hwf : Wf t)
    (hinj : ∀ u ∈ occs t, ∀ v ∈ occs t, lab u = lab v → u = v)
    (hsize : (flattenT t).length ≤ USIZE_MAX)
    (hfuel : sizeT t < fuel) (hdepth : depthT t < fuel) :
    (∃ st, read_single_file_seek fuel header (dedupSer lab [] [t]) ⟨[], 0⟩
        (some (lab t)) none = .ok st ∧ st.out.data = flattenT t) ∧
    SingleFile.read_single_file_buffered fuel header (dedupSer lab [] [t]) []
      (some (lab t)) none = .ok (flattenT t) := by
  have hocc1 : occsList [t] = occs t := by
    simp [occsList]
  constructor
  · obtain ⟨nodes', consumed', heq⟩ := runBlocks_dedup lab USIZE_MAX (lab t)
      (sizeTs [t]) [t] le_rfl [] [] [] [] fuel
      (by simp only [sizeTs]; omega)
      (by rw [hocc1]; exact (wf_occs_all (sizeT t)).1 t le_rfl hwf)
      (by
        intro q F' h
        cases h
        exact List.not_mem_nil _)
      (by
        intro u hu hu'
        exact absurd hu' (List.not_mem_nil _))
      (fun c hc => rfl)
      (ordInv_nil_seen lab _)
      (by rw [hocc1]; exact hinj)
      (by
        intro cs hcs hmem
        exact absurd hmem (List.not_mem_nil _))
      (by simpa [flattenTs] using hsize)
    simp only [List.nil_append, List.length_nil, List.map_cons, List.map_nil,
      flattenTs, List.append_nil] at heq
    refine ⟨⟨nodes', ⟨consumed', consumed'.length⟩, (flattenT t).length,
      (flattenT t).length, ⟨flattenT t, (flattenT t).length⟩⟩, ?_, rfl⟩
    have hrem : (SortedLinks.mk consumed' consumed'.length).remaining = none := by
      unfold SortedLinks.remaining
      rw [if_pos (Nat.le_refl _)]
    unfold read_single_file_seek
    simp only [Option.getD_none, assert_header_single_file, initState, SortedLinks.new,
      heq, hrem]
  · exact buffered_dedup lab t fuel header hwf hinj hdepth

open SingleFileSeek in
/-- Witness for C1: scenario S3 — target layout `[a][b][a][a]` with two
distinct leaves `a = [120]` and `b = [121]` under a root, CIDs 1, 2, 3; the
deduplicated CAR carries a single copy of each block and both engines
produce the four-byte file `[120, 121, 120, 120]`, the seek engine copying
the repeated chunk back out of the sink. -/
theorem claim_c1_witness :
    (∃ st, read_single_file_seek 8 ⟨[7]⟩
        (dedupSer (fun s => match s with
            | FileTree.leaf [120] => 2
            | FileTree.leaf [121] => 3
            | _ => 1) []
          [FileTree.node [FileTree.leaf [120], FileTree.leaf [121],
            FileTree.leaf [120], FileTree.leaf [120]]]) ⟨[], 0⟩
        (some 1) none = .ok st ∧
      st.out.data = flattenT (FileTree.node [FileTree.leaf [120],
        FileTree.leaf [121], FileTree.leaf [120], FileTree.leaf [120]])) ∧
    SingleFile.read_single_file_buffered 8 ⟨[7]⟩
      (dedupSer (fun s => match s with
          | FileTree.leaf [120] => 2
          | FileTree.leaf [121] => 3
          | _ => 1) []
        [FileTree.node [FileTree.leaf [120], FileTree.leaf [121],
          FileTree.leaf [120], FileTree.leaf [120]]]) []
      (some 1) none =
      .ok (flattenT (FileTree.node [FileTree.leaf [120], FileTree.leaf [121],
        FileTree.leaf [120], FileTree.leaf [120]])) := by
  exact claim_c1 (fun s => match s with
      | FileTree.leaf [120] => 2
      | FileTree.leaf [121] => 3
      | _ => 1)
    (FileTree.node [FileTree.leaf [120], FileTree.leaf [121],
      FileTree.leaf [120], FileTree.leaf [120]]) 8 ⟨[7]⟩
    (by
      refine Wf.node _ (by simp) ?_
      intro c hc
      rcases List.mem_cons.mp hc with rfl | hc
      · exact Wf.leaf _
      rcases List.mem_cons.mp hc with rfl | hc
      · exact Wf.leaf _
      rcases List.mem_cons.mp hc with rfl | hc
      · exact Wf.leaf _
      rcases List.mem_cons.mp hc with rfl | hc
      · exact Wf.leaf _
      cases hc)
    (by
      intro u hu v hv h
      have hu' : u = FileTree.node [FileTree.leaf [120], FileTree.leaf [121],
          FileTree.leaf [120], FileTree.leaf [120]] ∨
          u = FileTree.leaf [120] ∨ u = FileTree.leaf [121] := by
        simp [occs, occsList] at hu
        tauto
      have hv' : v = FileTree.node [FileTree.leaf [120], FileTree.leaf [121],
          FileTree.leaf [120], FileTree.leaf [120]] ∨
          v = FileTree.leaf [120] ∨ v = FileTree.leaf [121] := by
        simp [occs, occsList] at hv
        tauto
      rcases hu' with rfl | rfl | rfl <;> rcases hv' with rfl | rfl | rfl <;>
        first
          | rfl
          | exact absurd h (by decide))
    (by simp [flattenT, flattenTs, USIZE_MAX])
    (by simp [sizeT, sizeTs])
    (by simp [depthT, depthTs])

end RsCarIpfs
